import Mathlib

/-!
Verification of the random bulk-crystal-structure generator
`ase/ga/bulk_startgenerator.py` (class `StartGenerator`).

The generator is embedded shallowly over exact rationals:
* 3-vectors are `ℚ × ℚ × ℚ` and cells are triples of row vectors,
  mirroring the row-vector convention of the source (`cell[i, :]` is
  lattice vector i, positions are linear combinations of rows);
* the Python floats are modelled as exact rationals; comparisons of
  Euclidean norms against minimal distances are carried out on squared
  norms, which is equivalent for nonnegative bounds (proved below where
  it matters);
* the pseudo-random draws consumed by the code are passed in explicitly
  (streams of values / permutations / discard choices), so that every
  theorem quantifies over all possible draws;
* the unbounded `while` loops of the source are embedded as fueled
  recursions returning `Option`; `none` models "the loop has not
  terminated within the given number of iterations".
-/

namespace BulkSG

/-! ### Rational 3-vectors and 3x3 cells (rows) -/

abbrev Vec3 := ℚ × ℚ × ℚ

def vadd (a b : Vec3) : Vec3 := (a.1 + b.1, a.2.1 + b.2.1, a.2.2 + b.2.2)

def vsub (a b : Vec3) : Vec3 := (a.1 - b.1, a.2.1 - b.2.1, a.2.2 - b.2.2)

def vsmul (s : ℚ) (a : Vec3) : Vec3 := (s * a.1, s * a.2.1, s * a.2.2)

/-- Squared Euclidean norm of a 3-vector. -/
def normSq (a : Vec3) : ℚ := a.1 ^ 2 + a.2.1 ^ 2 + a.2.2 ^ 2

/-- A cell: three lattice row vectors, as in `cell[0,:], cell[1,:], cell[2,:]`. -/
abbrev Mat3 := Vec3 × Vec3 × Vec3

/-- The linear combination `f[0]*cell[0,:] + f[1]*cell[1,:] + f[2]*cell[2,:]`,
the Cartesian position with fractional coordinates `f`. -/
def lincomb (f : Vec3) (m : Mat3) : Vec3 :=
  vadd (vsmul f.1 m.1) (vadd (vsmul f.2.1 m.2.1) (vsmul f.2.2 m.2.2))

/-- Determinant of a cell (`np.linalg.det(cell)`), explicit cofactor formula. -/
def det3 (m : Mat3) : ℚ :=
  m.1.1 * (m.2.1.2.1 * m.2.2.2.2 - m.2.1.2.2 * m.2.2.2.1)
    - m.1.2.1 * (m.2.1.1 * m.2.2.2.2 - m.2.1.2.2 * m.2.2.1)
    + m.1.2.2 * (m.2.1.1 * m.2.2.2.1 - m.2.1.2.1 * m.2.2.1)

/-- `cell *= s`: every entry multiplied by the scalar `s`. -/
def smulM (s : ℚ) (m : Mat3) : Mat3 := (vsmul s m.1, vsmul s m.2.1, vsmul s m.2.2)

/-- `full_cell = (repeat * cell.T).T`: row `d` of the subcell scaled by
the repeat factor of direction `d` (source line 141). -/
def fullOf (rep : ℕ × ℕ × ℕ) (m : Mat3) : Mat3 :=
  (vsmul (rep.1 : ℚ) m.1, vsmul (rep.2.1 : ℚ) m.2.1, vsmul (rep.2.2 : ℚ) m.2.2)

/-- `cell = (full_cell.T / repeat).T`: row `d` of the fixed full cell divided
by the repeat factor of direction `d` (source line 122). -/
def subcellOfFixed (c : Mat3) (rep : ℕ × ℕ × ℕ) : Mat3 :=
  (vsmul (1 / (rep.1 : ℚ)) c.1, vsmul (1 / (rep.2.1 : ℚ)) c.2.1,
    vsmul (1 / (rep.2.2 : ℚ)) c.2.2)

/-- `nparts = np.product(repeat)` (source line 109). -/
def npartsOf (rep : ℕ × ℕ × ℕ) : ℕ := rep.1 * (rep.2.1 * rep.2.2)

theorem det3_smulM (s : ℚ) (m : Mat3) : det3 (smulM s m) = s ^ 3 * det3 m := by
  simp only [det3, smulM, vsmul]
  ring

/-! ### Construction-time processing (`StartGenerator.__init__`, lines 57-85)

The constructor stores `volume`, `cellbounds` and `cell` unchecked,
normalizes the split weights by their total (a zero total raises Python's
`ZeroDivisionError` in `v * 1. / tot`), resolves each building block
(an `Atoms` object is kept; otherwise the element / molecule name is looked
up, an unknown name raising the resolver's error), and finally stores the
distance dictionary `blmin` as given, without inspecting its entries
(the branch taken when `type(blmin) == dict`). -/

/-- A building block: the element identity (atomic number) and position of
each of its atoms. -/
structure Block where
  atoms : List (ℕ × Vec3)
deriving DecidableEq

/-- A block argument: either a pre-built fragment (`Atoms` instance) or an
element / molecule name to be resolved. -/
inductive BlockSpec where
  | prebuilt : Block → BlockSpec
  | name : String → BlockSpec

/-- Modelled from the spec: the element/molecule name resolver
(`atomic_numbers` / `ase.build.molecule`, outside the supplied sources):
"a molecule/element name resolver producing a fragment's atom list and
positions"; unknown names fail. -/
def Resolver := String → Option Block

inductive InitError where
  | zeroDivision
  | unresolvedName
deriving DecidableEq

/-- The generator's configuration after construction. -/
structure Config where
  volume : ℚ
  cellbounds : Option (Mat3 → Bool)
  cell : Option Mat3
  splits : List (List ℕ × ℚ)
  blocks : List (Block × ℕ)
  blmin : List ((ℕ × ℕ) × ℚ)

def exceptOk {ε α : Type} : Except ε α → Bool
  | .ok _ => true
  | .error _ => false

/-- `tot = sum([v for v in splits.values()])` (source line 65). -/
def sumWeights (splits : List (List ℕ × ℚ)) : ℚ := (splits.map Prod.snd).sum

/-- `self.splits = {k: v * 1. / tot for k, v in splits.iteritems()}`
(source line 66); division by a zero total raises `ZeroDivisionError`. -/
def normalizeSplits (splits : List (List ℕ × ℚ)) :
    Except InitError (List (List ℕ × ℚ)) :=
  if sumWeights splits = 0 then .error .zeroDivision
  else .ok (splits.map fun kv => (kv.1, kv.2 / sumWeights splits))

/-- Lines 72-77: keep an `Atoms` block, otherwise resolve the name. -/
def resolveBlock (res : Resolver) : BlockSpec → Except InitError Block
  | .prebuilt b => .ok b
  | .name s =>
      match res s with
      | some b => .ok b
      | none => .error .unresolvedName

def resolveBlocks (res : Resolver) :
    List (BlockSpec × ℕ) → Except InitError (List (Block × ℕ))
  | [] => .ok []
  | (sp, c) :: rest => do
      let b ← resolveBlock res sp
      let r ← resolveBlocks res rest
      .ok ((b, c) :: r)

/-- `StartGenerator.__init__` (lines 57-85), `blmin` given as a dictionary:
stores `volume`, `cellbounds`, `cell` without any check, normalizes the
split weights, resolves the blocks, and stores `blmin` as given. -/
def init (res : Resolver) (blocks : List (BlockSpec × ℕ))
    (blmin : List ((ℕ × ℕ) × ℚ)) (volume : ℚ)
    (cellbounds : Option (Mat3 → Bool)) (cell : Option Mat3)
    (splits : List (List ℕ × ℚ)) : Except InitError Config := do
  let s ← normalizeSplits splits
  let bs ← resolveBlocks res blocks
  .ok ⟨volume, cellbounds, cell, s, bs, blmin⟩

/-- A resolver with an empty lookup table (never consulted when every block
is pre-built). -/
def resolver0 : Resolver := fun _ => none

/-- A single atom of element 1 at the origin. -/
def blockA : Block := ⟨[(1, ((0 : ℚ), (0 : ℚ), (0 : ℚ)))]⟩

theorem resolveBlocks_isOk (res : Resolver) (l : List (BlockSpec × ℕ)) :
    exceptOk (resolveBlocks res l) = l.all fun sc => exceptOk (resolveBlock res sc.1) := by
  induction l with
  | nil => rfl
  | cons hd tl ih =>
      obtain ⟨sp, c⟩ := hd
      cases hres : resolveBlock res sp with
      | error e =>
          have h1 : resolveBlocks res ((sp, c) :: tl) = .error e := by
            simp [resolveBlocks, bind, Except.bind, hres]
          rw [h1, List.all_cons, hres]
          simp [exceptOk]
      | ok b =>
          cases htl : resolveBlocks res tl with
          | error e =>
              have h1 : resolveBlocks res ((sp, c) :: tl) = .error e := by
                simp [resolveBlocks, bind, Except.bind, hres, htl]
              rw [h1, List.all_cons, hres, ← ih, htl]
              rfl
          | ok r =>
              have h1 : resolveBlocks res ((sp, c) :: tl) = .ok ((b, c) :: r) := by
                simp [resolveBlocks, bind, Except.bind, hres, htl]
              rw [h1, List.all_cons, hres, ← ih, htl]
              rfl

/-- C3, counterexample.  The constructor is claimed to fail with
`ConfigurationError` when `volume <= 0` or when the distance table is
missing required entries.  In the source (lines 57-85) no such check
exists: constructing a generator with `volume = -1` and an empty distance
table (which is missing the required (1,1) entry for `blockA`) succeeds,
and the resulting configuration stores the non-positive volume and the
empty distance table verbatim, so no random sampling has been reached
and no error raised. -/
theorem C3_counterexample :
    exceptOk (init resolver0 [(.prebuilt blockA, 4)] [] (-1) none none
      [([1], 1)]) = true ∧
    init resolver0 [(.prebuilt blockA, 4)] [] (-1) none none [([1], 1)] =
      .ok ⟨-1, none, none, [([1], 1)], [(blockA, 4)], []⟩ := by
  have h : init resolver0 [(.prebuilt blockA, 4)] [] (-1) none none
      [([1], 1)] = .ok ⟨-1, none, none, [([1], 1)], [(blockA, 4)], []⟩ := by
    norm_num [init, normalizeSplits, sumWeights, resolveBlocks, resolveBlock,
      bind, Except.bind]
  exact ⟨by rw [h]; rfl, h⟩

/-- C3, amended.  Construction only fails when the split weights sum to
zero (Python's `ZeroDivisionError` while normalizing, not a
`ConfigurationError`) or when some block name cannot be resolved (the
resolver's lookup error).  It performs no validation of the volume and
never inspects the supplied distance table, for every choice of those
arguments. -/
theorem C3_init_no_validation (res : Resolver) (blocks : List (BlockSpec × ℕ))
    (blmin : List ((ℕ × ℕ) × ℚ)) (volume : ℚ)
    (cellbounds : Option (Mat3 → Bool)) (cell : Option Mat3)
    (splits : List (List ℕ × ℚ)) :
    exceptOk (init res blocks blmin volume cellbounds cell splits) =
      (!decide (sumWeights splits = 0) &&
        blocks.all fun sc => exceptOk (resolveBlock res sc.1)) := by
  by_cases h : sumWeights splits = 0
  · have h1 : normalizeSplits splits = .error .zeroDivision := by
      simp [normalizeSplits, h]
    simp [init, bind, Except.bind, h1, h, exceptOk]
  · have h1 : normalizeSplits splits =
        .ok (splits.map fun kv => (kv.1, kv.2 / sumWeights splits)) := by
      simp [normalizeSplits, h]
    rw [← resolveBlocks_isOk res blocks]
    cases hbs : resolveBlocks res blocks with
    | error e => simp [init, bind, Except.bind, h1, hbs, h, exceptOk]
    | ok bs => simp [init, bind, Except.bind, h1, hbs, h, exceptOk]

/-! ### C5: the cell rescaling step (lines 129-141)

After sampling a lower-triangular cell the source executes
`cell *= (target_volume / volume) ** 0.33` where `volume = abs(det(cell))`.
The exponent is `0.33`, not `1/3`.  A scale factor `s = x ** 0.33` (for
`x > 0`) is characterized algebraically by `s >= 0` and `s ^ 100 = x ^ 33`,
which is how the step is stated below without leaving the rationals. -/

/-- The identity cell. -/
def cellId : Mat3 := (((1 : ℚ), (0 : ℚ), (0 : ℚ)), ((0 : ℚ), (1 : ℚ), (0 : ℚ)),
  ((0 : ℚ), (0 : ℚ), (1 : ℚ)))

/-- C5, counterexample.  Take the unit cell (so the sampled volume is
`|det3 cellId| = 1`) and target subcell volume `2 ^ 100`.  The code's scale
factor is `(2 ^ 100 / 1) ** 0.33 = 2 ^ 33` (it satisfies the
characterization `s >= 0`, `s ^ 100 = (t / v) ^ 33` exactly), yet the
rescaled determinant is `2 ^ 99`, not the target `2 ^ 100`: the claimed
exact-volume property of the rescaling is false. -/
theorem C5_counterexample :
    (0 ≤ ((2 : ℚ) ^ 33) ∧
      ((2 : ℚ) ^ 33) ^ 100 = (((2 : ℚ) ^ 100) / |det3 cellId|) ^ 33) ∧
    |det3 (smulM ((2 : ℚ) ^ 33) cellId)| ≠ (2 : ℚ) ^ 100 := by
  have hdet : det3 cellId = 1 := by norm_num [det3, cellId]
  refine ⟨⟨by positivity, ?_⟩, ?_⟩
  · rw [hdet, abs_one, div_one, ← pow_mul, ← pow_mul]
  · rw [det3_smulM, hdet, mul_one,
      abs_of_nonneg (by positivity : (0 : ℚ) ≤ ((2 : ℚ) ^ 33) ^ 3)]
    norm_num [← pow_mul]

/-- C5, amended.  The rescale factor the code applies is
`(t / v) ** 0.33` (characterized by `hs0`, `hs`), hence the rescaled
determinant `d` satisfies `|d| ^ 100 = t ^ 99 * v`: the hundredth power of
the claimed exact value `t` is `t ^ 100`, so the determinant equals the
target only when the sampled volume `v` already equals `t`.  The full
cell's determinant thus differs from the configured total volume in
general. -/
theorem C5_rescaled_det (c : Mat3) (s t v : ℚ) (hv : v = |det3 c|) (hv0 : 0 < v)
    (hs0 : 0 ≤ s) (hs : s ^ 100 = (t / v) ^ 33) :
    |det3 (smulM s c)| ^ 100 = t ^ 99 * v := by
  have h1 : |det3 (smulM s c)| = s ^ 3 * v := by
    rw [det3_smulM, abs_mul, abs_pow, abs_of_nonneg hs0, ← hv]
  have hvne : v ≠ 0 := ne_of_gt hv0
  rw [h1, mul_pow, ← pow_mul, mul_comm 3 100, pow_mul, hs, ← pow_mul, div_pow]
  field_simp
  ring

/-- Witness for C5_rescaled_det at `c = cellId`, `s = t = v = 1`. -/
theorem C5_rescaled_det_witness :
    ((1 : ℚ) = |det3 cellId| ∧ (0 : ℚ) < 1 ∧ (0 : ℚ) ≤ 1 ∧
      (1 : ℚ) ^ 100 = ((1 : ℚ) / 1) ^ 33) ∧
    |det3 (smulM (1 : ℚ) cellId)| ^ 100 = (1 : ℚ) ^ 99 * 1 := by
  have h1 : (1 : ℚ) = |det3 cellId| := by norm_num [det3, cellId]
  exact ⟨⟨h1, by norm_num, by norm_num, by norm_num⟩,
    C5_rescaled_det cellId 1 1 1 h1 (by norm_num) (by norm_num) (by norm_num)⟩

/-! ### Cell generation (`get_new_candidate`, lines 120-149)

With a fixed cell the subcell is the per-row quotient by the repeat
factors and the validity loop is skipped (`valid = True`, lines 120-123).
Otherwise the `while not valid` loop (lines 127-149) repeatedly samples a
cell and accepts it when (a) the corresponding full cell passes the
configured `cellbounds` test, and (b) every subcell row has Euclidean norm
at least `blminmax`.  The sampling of each attempt (lines 129-139) draws
entries involving the irrational power `target_volume ** 0.33`, so the
loop is embedded over an arbitrary stream `cells` of attempted cells,
keeping the acceptance test exact; every theorem below holds for all
streams, hence for the cells the source actually draws.  The norm test
`np.linalg.norm(cell[i, :]) < blminmax` is carried out on squared norms;
`rowLongB_iff` proves this is the same comparison. -/

/-- `blminmax = max([blmin[k] for k in blmin if k[0] == k[1]])`
(line 128); for an empty same-element list the source would raise, here
the value defaults to 0. -/
def blminmaxOf (bl : List ((ℕ × ℕ) × ℚ)) : ℚ :=
  ((bl.filter fun e => e.1.1 == e.1.2).map Prod.snd).foldl max 0

/-- Acceptance test for one row: NOT (`np.linalg.norm(cell[i,:]) < blminmax`),
i.e. `blminmax <= norm`, stated on squared norms. -/
def rowLongB (b : ℚ) (v : Vec3) : Bool := decide (b ≤ 0) || decide (b ^ 2 ≤ normSq v)

/-- Validity of a sampled subcell (lines 143-149): the full cell passes the
`cellbounds` test when bounds are configured, and all three subcell rows
are long enough. -/
def cellValidB (cb : Option (Mat3 → Bool)) (bmax : ℚ) (rep : ℕ × ℕ × ℕ)
    (cell : Mat3) : Bool :=
  (match cb with
    | none => true
    | some f => f (fullOf rep cell)) &&
  (rowLongB bmax cell.1 && (rowLongB bmax cell.2.1 && rowLongB bmax cell.2.2))

/-- The `while not valid` loop (lines 127-149) with explicit fuel: attempt
`k` examines `cells k` and accepts the first valid cell. -/
def cellLoop (cb : Option (Mat3 → Bool)) (bmax : ℚ) (rep : ℕ × ℕ × ℕ)
    (cells : ℕ → Mat3) : ℕ → ℕ → Option Mat3
  | _, 0 => none
  | k, fuel + 1 =>
      if cellValidB cb bmax rep (cells k) then some (cells k)
      else cellLoop cb bmax rep cells (k + 1) fuel

/-- Lines 120-149 as one phase: the resulting (subcell, full cell) pair.
With a fixed cell the loop is skipped; otherwise the accepted subcell is
scaled to the full cell (line 141). -/
def cellPhase (cfg : Config) (rep : ℕ × ℕ × ℕ) (cells : ℕ → Mat3) (fuel : ℕ) :
    Option (Mat3 × Mat3) :=
  match cfg.cell with
  | some c => some (subcellOfFixed c rep, c)
  | none =>
      (cellLoop cfg.cellbounds (blminmaxOf cfg.blmin) rep cells 0 fuel).map
        fun c => (c, fullOf rep c)

theorem cellLoop_some (cb : Option (Mat3 → Bool)) (bmax : ℚ) (rep : ℕ × ℕ × ℕ)
    (cells : ℕ → Mat3) (fuel k : ℕ) (c : Mat3)
    (h : cellLoop cb bmax rep cells k fuel = some c) :
    cellValidB cb bmax rep c = true := by
  induction fuel generalizing k with
  | zero => exact absurd h (by simp [cellLoop])
  | succ n ih =>
      rw [cellLoop] at h
      by_cases hv : cellValidB cb bmax rep (cells k) = true
      · rw [if_pos hv] at h
        obtain rfl : cells k = c := by injection h
        exact hv
      · rw [if_neg hv] at h
        exact ih _ h

theorem rowLongB_iff (b : ℚ) (v : Vec3) :
    rowLongB b v = true ↔ (b : ℝ) ≤ Real.sqrt ((normSq v : ℚ) : ℝ) := by
  have hn : (0 : ℝ) ≤ ((normSq v : ℚ) : ℝ) := by
    have : (0 : ℚ) ≤ normSq v := by simp only [normSq]; positivity
    exact_mod_cast this
  simp only [rowLongB, Bool.or_eq_true, decide_eq_true_eq]
  constructor
  · rintro (hb | hb)
    · exact le_trans (by exact_mod_cast hb) (Real.sqrt_nonneg _)
    · exact Real.le_sqrt_of_sq_le (by exact_mod_cast hb)
  · intro h
    by_cases hb : b ≤ 0
    · exact Or.inl hb
    · refine Or.inr ?_
      have hb' : (0 : ℝ) < (b : ℝ) := by exact_mod_cast lt_of_not_le hb
      have := (Real.le_sqrt' hb').mp h
      exact_mod_cast this

/-- The three row vectors of a cell. -/
def rowsOf (m : Mat3) : List Vec3 := [m.1, m.2.1, m.2.2]

/-- C8.  Every subcell accepted by the sampling loop has all three row
vectors of Euclidean length at least `blminmax` (the maximum same-element
entry of the distance table); an attempt violating this is never returned,
for every stream of attempts, every retry budget and every bounds
predicate. -/
theorem C8_accepted_rows_long (cb : Option (Mat3 → Bool))
    (bl : List ((ℕ × ℕ) × ℚ)) (rep : ℕ × ℕ × ℕ) (cells : ℕ → Mat3)
    (fuel k : ℕ) (c : Mat3)
    (h : cellLoop cb (blminmaxOf bl) rep cells k fuel = some c) :
    ∀ v ∈ rowsOf c, ((blminmaxOf bl : ℚ) : ℝ) ≤ Real.sqrt ((normSq v : ℚ) : ℝ) := by
  have hv := cellLoop_some cb (blminmaxOf bl) rep cells fuel k c h
  simp only [cellValidB, Bool.and_eq_true] at hv
  intro v hmem
  simp only [rowsOf, List.mem_cons, List.mem_singleton, List.not_mem_nil, or_false] at hmem
  rcases hmem with rfl | rfl | rfl
  · exact (rowLongB_iff _ _).mp hv.2.1
  · exact (rowLongB_iff _ _).mp hv.2.2.1
  · exact (rowLongB_iff _ _).mp hv.2.2.2

/-- A concrete diagonal cell with rows of length 2. -/
def cellDiag2 : Mat3 := (((2 : ℚ), (0 : ℚ), (0 : ℚ)), ((0 : ℚ), (2 : ℚ), (0 : ℚ)),
  ((0 : ℚ), (0 : ℚ), (2 : ℚ)))

/-- A distance table with the single same-element entry (1,1) -> 1. -/
def blminX : List ((ℕ × ℕ) × ℚ) := [((1, 1), 1)]

theorem cellLoop_diag2 :
    cellLoop none (blminmaxOf blminX) (1, 1, 1) (fun _ => cellDiag2) 0 1 =
      some cellDiag2 := by
  norm_num [cellLoop, cellValidB, rowLongB, blminmaxOf, blminX, cellDiag2, normSq,
    List.foldl]

/-- Witness for C8_accepted_rows_long on a concrete accepted cell. -/
theorem C8_accepted_rows_long_witness :
    (cellLoop none (blminmaxOf blminX) (1, 1, 1) (fun _ => cellDiag2) 0 1 =
      some cellDiag2) ∧
    ∀ v ∈ rowsOf cellDiag2,
      ((blminmaxOf blminX : ℚ) : ℝ) ≤ Real.sqrt ((normSq v : ℚ) : ℝ) :=
  ⟨cellLoop_diag2,
    C8_accepted_rows_long none blminX (1, 1, 1) (fun _ => cellDiag2) 1 0 cellDiag2
      cellLoop_diag2⟩

/-- C4, amended part.  The loops carry no retry ceiling and no
`GenerationError` exists; modelled with explicit fuel, cell sampling
either accepts a valid cell or yields nothing — whenever a cell is
returned it passed the full validity test, and no partial result exists. -/
theorem C4_accepted_is_valid (cb : Option (Mat3 → Bool)) (bmax : ℚ)
    (rep : ℕ × ℕ × ℕ) (cells : ℕ → Mat3) (fuel k : ℕ) (c : Mat3)
    (h : cellLoop cb bmax rep cells k fuel = some c) :
    cellValidB cb bmax rep c = true :=
  cellLoop_some cb bmax rep cells fuel k c h

/-- Witness for C4_accepted_is_valid. -/
theorem C4_accepted_is_valid_witness :
    (cellLoop none (blminmaxOf blminX) (1, 1, 1) (fun _ => cellDiag2) 0 1 =
      some cellDiag2) ∧
    cellValidB none (blminmaxOf blminX) (1, 1, 1) cellDiag2 = true :=
  ⟨cellLoop_diag2,
    C4_accepted_is_valid none (blminmaxOf blminX) (1, 1, 1) (fun _ => cellDiag2)
      1 0 cellDiag2 cellLoop_diag2⟩

/-- A cell-bounds predicate that rejects every cell. -/
def rejectAll : Mat3 → Bool := fun _ => false

/-- "The cell-sampling loop never accepts, whatever the retry budget":
the fueled embedding of the `while not valid` loop returns nothing at every
fuel, i.e. the unbounded source loop runs forever. -/
def cellLoopDiverges (cb : Option (Mat3 → Bool)) (bmax : ℚ) (rep : ℕ × ℕ × ℕ)
    (cells : ℕ → Mat3) : Prop :=
  ∀ fuel k, cellLoop cb bmax rep cells k fuel = none

/-- C4, counterexample.  `get_new_candidate` does not terminate for every
configuration: with cell-shape bounds that reject every cell (a legal
`cellbounds` argument) and no fixed cell, the sampling loop at lines
127-149 never exits, for every stream of sampled cells and every retry
budget; no `GenerationError` is ever raised (no such mechanism exists in
the source). -/
theorem C4_counterexample :
    cellLoopDiverges (some rejectAll) (blminmaxOf blminX) (1, 1, 1)
      (fun _ => cellDiag2) := by
  intro fuel
  induction fuel with
  | zero => intro k; rfl
  | succ n ih =>
      intro k
      rw [cellLoop]
      have : cellValidB (some rejectAll) (blminmaxOf blminX) (1, 1, 1)
          ((fun _ => cellDiag2) k) = false := by
        simp [cellValidB, rejectAll]
      rw [this]
      simp only [Bool.false_eq_true, if_false]
      exact ih (k + 1)

/-- C7, amended part.  When no fixed cell is configured and bounds are,
every cell accepted by the sampling loop satisfies them: the full cell
passes `is_within_bounds`. -/
theorem C7_sampled_cell_within_bounds (cfg : Config) (f : Mat3 → Bool)
    (rep : ℕ × ℕ × ℕ) (cells : ℕ → Mat3) (fuel : ℕ) (sub full : Mat3)
    (hnofix : cfg.cell = none) (hcb : cfg.cellbounds = some f)
    (h : cellPhase cfg rep cells fuel = some (sub, full)) :
    f full = true := by
  rw [cellPhase, hnofix, hcb] at h
  cases hloop : cellLoop (some f) (blminmaxOf cfg.blmin) rep cells 0 fuel with
  | none => rw [hloop] at h; exact absurd h (by simp)
  | some c =>
      rw [hloop] at h
      simp only [Option.map, Option.some.injEq, Prod.mk.injEq] at h
      obtain ⟨rfl, rfl⟩ := h
      have hv := cellLoop_some _ _ _ _ _ _ _ hloop
      simp only [cellValidB, Bool.and_eq_true] at hv
      exact hv.1

/-! ### Atom placement (`get_new_candidate`, lines 151-197)

An atom carries its element identity, Cartesian position and the integer
tag of its placement instance.  Instance `i` of the shuffled block list is
copied, tagged `i`, translated so that its center of positions lands on
`random_pos(cell)` and, for multi-atom blocks, rotated about that point
(lines 175-189).  The Euler rotation involves trigonometric functions, so
the rotation applied at each attempt is abstracted as an arbitrary map
`rotF` fixing the rotation center; the claims hold for every such map.
The tentative structure `cand + atoms` is wrapped into the cell and tested
with `atoms_too_close(..., use_tags=True)`; only on a negative test is the
block merged (lines 190-197). -/

structure Atom where
  el : ℕ
  pos : Vec3
  tag : ℕ
deriving DecidableEq

/-- Dictionary lookup in the distance table; the table is symmetric
("entry for (a,b) equals entry for (b,a)"), both orders are consulted and
an absent pair defaults to 0 (no constraint; the source would raise a
`KeyError`, cf. C3). -/
def lookupBL (bl : List ((ℕ × ℕ) × ℚ)) (a b : ℕ) : ℚ :=
  match bl.lookup (a, b) with
  | some d => d
  | none => ((bl.lookup (b, a)).getD 0)

/-- The 27 lattice offsets with coefficients in {-1, 0, 1}. -/
def offsets27 : List Vec3 :=
  ([-1, 0, 1] : List ℚ).flatMap fun x =>
    ([-1, 0, 1] : List ℚ).flatMap fun y =>
      ([-1, 0, 1] : List ℚ).map fun z => (x, y, z)

/-- Modelled from the spec: the squared interatomic distance "minimized
over periodic images" used by `atoms_too_close` (in
`ase.ga.bulk_utilities`, outside the supplied sources), minimizing over
the nearest-image lattice offsets. -/
def distSqMIC (cell : Mat3) (p q : Vec3) : ℚ :=
  (offsets27.map fun o => normSq (vadd (vsub p q) (lincomb o cell))).foldl min
    (normSq (vsub p q))

/-- Modelled from the spec: one pair test of `atoms_too_close` with
`use_tags=True` — atoms of the same placement tag are never compared,
others violate when their minimum-image distance is below the table entry
for their element pair (squared comparison). -/
def closePairB (cell : Mat3) (bl : List ((ℕ × ℕ) × ℚ)) (a b : Atom) : Bool :=
  (a.tag != b.tag) &&
    decide (distSqMIC cell a.pos b.pos < (lookupBL bl a.el b.el) ^ 2)

/-- Modelled from the spec: `atoms_too_close(atoms, blmin, use_tags=True)`
— some unordered pair of differently tagged atoms is too close. -/
def tooCloseB (cell : Mat3) (bl : List ((ℕ × ℕ) × ℚ)) : List Atom → Bool
  | [] => false
  | a :: rest => rest.any (closePairB cell bl a) || tooCloseB cell bl rest

/-- The distance property claimed for generated structures: every pair of
distinct atoms either shares a placement tag or is separated (minimum
image) by at least the distance-table entry for its element pair. -/
def pairwiseOK (cell : Mat3) (bl : List ((ℕ × ℕ) × ℚ)) (atoms : List Atom) : Prop :=
  atoms.Pairwise fun a b =>
    a.tag ≠ b.tag → (lookupBL bl a.el b.el) ^ 2 ≤ distSqMIC cell a.pos b.pos

theorem tooCloseB_eq_false_iff (cell : Mat3) (bl : List ((ℕ × ℕ) × ℚ))
    (atoms : List Atom) : tooCloseB cell bl atoms = false ↔ pairwiseOK cell bl atoms := by
  unfold pairwiseOK
  induction atoms with
  | nil => simp [tooCloseB]
  | cons a rest ih =>
      rw [List.pairwise_cons, ← ih]
      show (rest.any (closePairB cell bl a) || tooCloseB cell bl rest) = false ↔ _
      rw [Bool.or_eq_false_iff]
      constructor
      · rintro ⟨h1, h2⟩
        refine ⟨fun b hb htag => ?_, h2⟩
        have hc := List.any_eq_false.mp h1 b hb
        simp only [closePairB, Bool.and_eq_true, bne_iff_ne, decide_eq_true_eq,
          not_and] at hc
        exact le_of_not_lt (hc htag)
      · rintro ⟨h1, h2⟩
        refine ⟨List.any_eq_false.mpr fun b hb => ?_, h2⟩
        simp only [closePairB, Bool.and_eq_true, bne_iff_ne, decide_eq_true_eq,
          not_and]
        intro htag
        exact not_lt_of_le (h1 b hb htag)

/-! Wrapping (`attempt.wrap()`, line 192): positions are converted to
fractional coordinates (solving `pos = f . cell` by Cramer's rule), the
fractional parts are reduced modulo 1 and converted back. -/

def fracQ (q : ℚ) : ℚ := q - ⌊q⌋

/-- Cramer's rule for the row-vector system `f . cell = v`. -/
def solve3 (m : Mat3) (v : Vec3) : Vec3 :=
  (det3 (v, m.2.1, m.2.2) / det3 m, det3 (m.1, v, m.2.2) / det3 m,
    det3 (m.1, m.2.1, v) / det3 m)

def wrapPos (cell : Mat3) (p : Vec3) : Vec3 :=
  let f := solve3 cell p
  lincomb (fracQ f.1, fracQ f.2.1, fracQ f.2.2) cell

def wrapAll (cell : Mat3) (atoms : List Atom) : List Atom :=
  atoms.map fun a => ⟨a.el, wrapPos cell a.pos, a.tag⟩

/-- Center of positions `atoms.get_positions().mean(axis=0)` (line 183). -/
def copOf (l : List (ℕ × Vec3)) : Vec3 :=
  vsmul (1 / (l.length : ℚ)) (l.foldl (fun acc p => vadd acc p.2) (0, 0, 0))

/-- One tentative placement of block `b` as instance `j` (lines 177-189):
copy the block, tag it `j`, translate its center of positions to
`random_pos(cell)` computed from the three uniform draws `r`
(`random_pos`, lines 16-22), and rotate multi-atom blocks about that
point with the abstracted rotation `rotF`. -/
def mkTry (cell : Mat3) (b : Block) (j : ℕ) (r : Vec3) (rotF : Vec3 → Vec3) :
    List Atom :=
  let pos := lincomb r cell
  let cop := copOf b.atoms
  let moved := b.atoms.map fun ep => (ep.1, vadd ep.2 (vsub pos cop))
  let placed :=
    if 1 < b.atoms.length then
      moved.map fun ep => (ep.1, vadd pos (rotF (vsub ep.2 pos)))
    else moved
  placed.map fun ep => (⟨ep.1, ep.2, j⟩ : Atom)

/-- The inner `while not pos_found` loop (lines 181-197) for one block
instance: attempt `k` uses draws `rs k` and rotation `rotF k`; the wrapped
tentative structure is tested and the first non-violating try is returned
(the merged atoms themselves are the unwrapped ones, as in the source). -/
def placeOne (cell : Mat3) (bl : List ((ℕ × ℕ) × ℚ)) (cand : List Atom)
    (b : Block) (j : ℕ) (rs : ℕ → Vec3) (rotF : ℕ → Vec3 → Vec3) :
    ℕ → ℕ → Option (List Atom)
  | _, 0 => none
  | k, fuel + 1 =>
      let t := mkTry cell b j (rs k) (rotF k)
      if tooCloseB cell bl (wrapAll cell (cand ++ t)) then
        placeOne cell bl cand b j rs rotF (k + 1) fuel
      else some t

/-- The `for i in range(N_blocks)` placement loop (lines 175-197):
instances are placed one at a time in shuffled order, each merged into the
growing candidate only after a negative too-close test. -/
def placeAllGo (cell : Mat3) (bl : List ((ℕ × ℕ) × ℚ)) (rs : ℕ → ℕ → Vec3)
    (rotF : ℕ → ℕ → Vec3 → Vec3) (fuel : ℕ) :
    List (Block × ℕ) → ℕ → List Atom → Option (List Atom)
  | [], _, cand => some cand
  | bi :: rest, j, cand =>
      match placeOne cell bl cand bi.1 j (rs j) (rotF j) 0 fuel with
      | none => none
      | some t => placeAllGo cell bl rs rotF fuel rest (j + 1) (cand ++ t)

theorem placeOne_some (cell : Mat3) (bl : List ((ℕ × ℕ) × ℚ)) (cand : List Atom)
    (b : Block) (j : ℕ) (rs : ℕ → Vec3) (rotF : ℕ → Vec3 → Vec3) (k fuel : ℕ)
    (t : List Atom) (h : placeOne cell bl cand b j rs rotF k fuel = some t) :
    (∃ k0, t = mkTry cell b j (rs k0) (rotF k0)) ∧
      tooCloseB cell bl (wrapAll cell (cand ++ t)) = false := by
  induction fuel generalizing k with
  | zero => exact absurd h (by simp [placeOne])
  | succ n ih =>
      rw [placeOne] at h
      by_cases hc : tooCloseB cell bl
          (wrapAll cell (cand ++ mkTry cell b j (rs k) (rotF k))) = true
      · rw [if_pos hc] at h
        exact ih _ h
      · rw [if_neg hc] at h
        obtain rfl : mkTry cell b j (rs k) (rotF k) = t := by injection h
        exact ⟨⟨k, rfl⟩, Bool.eq_false_iff.mpr hc⟩

theorem mkTry_length (cell : Mat3) (b : Block) (j : ℕ) (r : Vec3)
    (rotF : Vec3 → Vec3) : (mkTry cell b j r rotF).length = b.atoms.length := by
  simp only [mkTry]
  by_cases h : 1 < b.atoms.length <;> simp [h]

theorem mkTry_tags (cell : Mat3) (b : Block) (j : ℕ) (r : Vec3)
    (rotF : Vec3 → Vec3) : ∀ a ∈ mkTry cell b j r rotF, a.tag = j := by
  intro a ha
  simp only [mkTry] at ha
  by_cases h : 1 < b.atoms.length
  · simp only [h, if_true, List.map_map, List.mem_map] at ha
    obtain ⟨ep, _, rfl⟩ := ha
    rfl
  · simp only [h, if_false, List.map_map, List.mem_map] at ha
    obtain ⟨ep, _, rfl⟩ := ha
    rfl

theorem placeAllGo_pairwise (cell : Mat3) (bl : List ((ℕ × ℕ) × ℚ))
    (rs : ℕ → ℕ → Vec3) (rotF : ℕ → ℕ → Vec3 → Vec3) (fuel : ℕ)
    (insts : List (Block × ℕ)) :
    ∀ (j : ℕ) (cand c : List Atom),
    tooCloseB cell bl (wrapAll cell cand) = false →
    placeAllGo cell bl rs rotF fuel insts j cand = some c →
    tooCloseB cell bl (wrapAll cell c) = false := by
  induction insts with
  | nil =>
      intro j cand c h0 h
      obtain rfl : cand = c := by injection h
      exact h0
  | cons bi rest ih =>
      intro j cand c h0 h
      rw [placeAllGo] at h
      cases hp : placeOne cell bl cand bi.1 j (rs j) (rotF j) 0 fuel with
      | none => rw [hp] at h; exact absurd h (by simp)
      | some t =>
          rw [hp] at h
          exact ih (j + 1) (cand ++ t) c
            (placeOne_some cell bl cand bi.1 j (rs j) (rotF j) 0 fuel t hp).2 h

/-- C2, amended part.  Whatever candidate the placement loop produces, its
wrapped form satisfies the distance property: every pair of atoms with
distinct placement tags is separated (minimum over periodic images) by at
least the distance-table entry for its element pair — each block is merged
only after the tag-aware too-close test reports no violation, and the last
merge tested the whole structure.  (The property holds for the subcell;
claim C2 extends it to the replicated full structure, which fails, see the
counterexample.) -/
theorem C2_subcell_distances (cell : Mat3) (bl : List ((ℕ × ℕ) × ℚ))
    (rs : ℕ → ℕ → Vec3) (rotF : ℕ → ℕ → Vec3 → Vec3) (fuel : ℕ)
    (insts : List (Block × ℕ)) (c : List Atom)
    (h : placeAllGo cell bl rs rotF fuel insts 0 [] = some c) :
    pairwiseOK cell bl (wrapAll cell c) :=
  (tooCloseB_eq_false_iff _ _ _).mp
    (placeAllGo_pairwise cell bl rs rotF fuel insts 0 [] c (by rfl) h)

/-- Zero position draws and identity rotations, for concrete runs. -/
def rsZero : ℕ → ℕ → Vec3 := fun _ _ => ((0 : ℚ), (0 : ℚ), (0 : ℚ))

def rotId : ℕ → ℕ → Vec3 → Vec3 := fun _ _ v => v

/-- The single-atom try placed at the origin. -/
def atomA : Atom := ⟨1, ((0 : ℚ), (0 : ℚ), (0 : ℚ)), 0⟩

theorem placeAllGo_single :
    placeAllGo cellDiag2 blminX (rsZero) (rotId) 1 [(blockA, 0)] 0 [] =
      some [atomA] := by
  norm_num [placeAllGo, placeOne, mkTry, copOf, blockA, lincomb, vadd, vsub,
    vsmul, rsZero, rotId, wrapAll, wrapPos, solve3, det3, fracQ, cellDiag2,
    tooCloseB, atomA]

/-- Witness for C2_subcell_distances on a concrete placement run. -/
theorem C2_subcell_distances_witness :
    (placeAllGo cellDiag2 blminX (rsZero) (rotId) 1 [(blockA, 0)] 0 [] =
      some [atomA]) ∧
    pairwiseOK cellDiag2 blminX (wrapAll cellDiag2 [atomA]) :=
  ⟨placeAllGo_single,
    C2_subcell_distances cellDiag2 blminX rsZero rotId 1 [(blockA, 0)] [atomA]
      placeAllGo_single⟩

/-! ### Replication, surplus removal, reassembly (lines 151-168, 199-226)

Lines 155-159: each block with count `c` contributes
`count_part = ceil(c / nparts)` instances (`surplus = nparts*count_part - c`
of the replicated ones are removed later); the flat instance list carries
the originating block index.  Lines 165-168 shuffle that list; the shuffle
is embedded as an arbitrary index list `order` applied to the expanded
list, and the theorems assume it is a permutation.  Lines 202-209: the
filled subcell is repeated over the `nparts` periodic images, the atoms of
image `i` having their tags offset by `i * N_blocks`.  Lines 211-224: per
original block, `np.where(indices_full == i)` lists its tags, a random
subset of size `surplus[i]` is discarded, and the surviving tag groups are
appended in order with tags renumbered by a running counter. -/

/-- `count_part = int(np.ceil(count * 1. / nparts))` (line 156): the
ceiling of `c / n` for `n >= 1`. -/
def countPart (c n : ℕ) : ℕ := (c + n - 1) / n

/-- `surplus = nparts * count_part - count` (line 157). -/
def surplusOf (c n : ℕ) : ℕ := n * countPart c n - c

/-- Lines 152-159: the flat instance list, each instance paired with its
originating block index (starting at `i`). -/
def expandInsts : List (Block × ℕ) → ℕ → ℕ → List (Block × ℕ)
  | [], _, _ => []
  | (b, c) :: rest, n, i =>
      List.replicate (countPart c n) (b, i) ++ expandInsts rest n (i + 1)

/-- The shuffled instance list (lines 165-168): the random shuffle is an
arbitrary reindexing `order` of the expanded list. -/
def shuffledInsts (blocks : List (Block × ℕ)) (n : ℕ) (order : List ℕ) :
    List (Block × ℕ) :=
  order.filterMap fun k => (expandInsts blocks n 0).get? k

/-- `np.tile(indices, nrep)` (line 212). -/
def tileN : ℕ → List ℕ → List ℕ
  | 0, _ => []
  | n + 1, l => l ++ tileN n l

/-- `np.where(indices_full == i)[0]` (line 215): the ascending positions
holding value `i`, starting position `k`. -/
def tagsOf : List ℕ → ℕ → ℕ → List ℕ
  | [], _, _ => []
  | x :: rest, i, k => (if x = i then [k] else []) ++ tagsOf rest i (k + 1)

/-- Lexicographic decoding of image index `i` into per-axis offsets. -/
def imageOf (rep : ℕ × ℕ × ℕ) (i : ℕ) : ℕ × ℕ × ℕ :=
  (i / (rep.2.1 * rep.2.2), (i / rep.2.2) % rep.2.1, i % rep.2.2)

/-- The Cartesian translation of periodic image `k`. -/
def shiftOf (cell : Mat3) (k : ℕ × ℕ × ℕ) : Vec3 :=
  lincomb ((k.1 : ℚ), (k.2.1 : ℚ), (k.2.2 : ℚ)) cell

/-- Lines 202-209: `cand.repeat(repeat)` followed by the per-image tag
offset `i * N_blocks`: image `i` holds a translated copy of the subcell
candidate with tags shifted by `i * N`. -/
def candFullOf (cell : Mat3) (rep : ℕ × ℕ × ℕ) (N : ℕ) (cand : List Atom) :
    List Atom :=
  (List.range (npartsOf rep)).flatMap fun i =>
    cand.map fun a =>
      ⟨a.el, vadd a.pos (shiftOf cell (imageOf rep i)), a.tag + i * N⟩

/-- `select = [a.index for a in cand_full if a.tag == tag]; cand_full[select]`
(lines 219-220). -/
def selectTag (t : ℕ) (l : List Atom) : List Atom := l.filter fun a => a.tag == t

/-- The tags of block `i` surviving the surplus discard (lines 215-218). -/
def keptTagsFor (indF : List ℕ) (bad : ℕ → List ℕ) (i : ℕ) : List ℕ :=
  (tagsOf indF i 0).filter fun t => decide (t ∉ bad i)

/-- All surviving tags, blocks processed in order with their index
(`for i, (block, count) in enumerate(self.blocks)`, lines 214-218). -/
def keptTagsGo (indF : List ℕ) (bad : ℕ → List ℕ) :
    List (Block × ℕ) → ℕ → List ℕ
  | [], _ => []
  | _ :: rest, i => keptTagsFor indF bad i ++ keptTagsGo indF bad rest (i + 1)

def keptTags (blocks : List (Block × ℕ)) (indF : List ℕ)
    (bad : ℕ → List ℕ) : List ℕ :=
  keptTagsGo indF bad blocks 0

/-- Lines 217-224: append the surviving tag groups, renumbering tags with
the running counter `tag_counter`. -/
def rebuildGo (cf : List Atom) : List ℕ → ℕ → List Atom
  | [], _ => []
  | t :: rest, g =>
      ((selectTag t cf).map fun a => ⟨a.el, a.pos, g⟩) ++ rebuildGo cf rest (g + 1)

def rebuild (cf : List Atom) (kept : List ℕ) : List Atom := rebuildGo cf kept 0

/-- The returned structure: the full cell and its atoms. -/
structure Candidate where
  cell : Mat3
  atoms : List Atom

/-- `get_new_candidate` (lines 87-228) with all random draws explicit:
`rep` is the repeat triple obtained from the sampled split (lines
96-107), `order` the shuffle of the instance list, `cells` the stream of
attempted cells with retry budget `cellFuel`, `rs`/`rotF` the placement
draws with per-instance retry budget `placeFuel`, and `bad i` the tags
discarded for block `i` (line 216). -/
def getNewCandidate (cfg : Config) (rep : ℕ × ℕ × ℕ) (order : List ℕ)
    (cells : ℕ → Mat3) (cellFuel : ℕ) (rs : ℕ → ℕ → Vec3)
    (rotF : ℕ → ℕ → Vec3 → Vec3) (placeFuel : ℕ) (bad : ℕ → List ℕ) :
    Option Candidate :=
  match cellPhase cfg rep cells cellFuel with
  | none => none
  | some (cell, full) =>
      let insts := shuffledInsts cfg.blocks (npartsOf rep) order
      match placeAllGo cell cfg.blmin rs rotF placeFuel insts 0 [] with
      | none => none
      | some cand =>
          let cf := candFullOf cell rep insts.length cand
          let indF := tileN (npartsOf rep) (insts.map Prod.snd)
          some ⟨full, rebuild cf (keptTags cfg.blocks indF bad)⟩

theorem tagsOf_mem (l : List ℕ) (i : ℕ) :
    ∀ k t, t ∈ tagsOf l i k ↔ ∃ d, t = k + d ∧ l.get? d = some i := by
  induction l with
  | nil => intro k t; simp [tagsOf]
  | cons x rest ih =>
      intro k t
      rw [tagsOf]
      by_cases hx : x = i
      · subst hx
        rw [if_pos rfl]
        simp only [List.cons_append, List.nil_append, List.mem_cons, ih (k + 1) t]
        constructor
        · rintro (rfl | ⟨d, rfl, hd⟩)
          · exact ⟨0, by omega, rfl⟩
          · exact ⟨d + 1, by omega, by simpa using hd⟩
        · rintro ⟨d, rfl, hd⟩
          cases d with
          | zero => left; omega
          | succ d' => right; exact ⟨d', by omega, by simpa using hd⟩
      · rw [if_neg hx]
        simp only [List.nil_append, ih (k + 1) t]
        constructor
        · rintro ⟨d, rfl, hd⟩
          exact ⟨d + 1, by omega, by simpa using hd⟩
        · rintro ⟨d, rfl, hd⟩
          cases d with
          | zero =>
              exfalso
              apply hx
              simpa using hd
          | succ d' => exact ⟨d', by omega, by simpa using hd⟩

theorem tagsOf_length (l : List ℕ) (i : ℕ) :
    ∀ k, (tagsOf l i k).length = l.count i := by
  induction l with
  | nil => intro k; simp [tagsOf]
  | cons x rest ih =>
      intro k
      rw [tagsOf, List.length_append, ih (k + 1)]
      by_cases hx : x = i
      · subst hx; simp [List.count_cons_self]; omega
      · simp [hx, List.count_cons, Ne.symm hx]

theorem tagsOf_ge (l : List ℕ) (i : ℕ) :
    ∀ k, ∀ t ∈ tagsOf l i k, k ≤ t := by
  induction l with
  | nil => intro k t ht; simp [tagsOf] at ht
  | cons x rest ih =>
      intro k t ht
      rw [tagsOf] at ht
      rcases List.mem_append.mp ht with hm | hm
      · by_cases hx : x = i
        · rw [if_pos hx] at hm
          simp only [List.mem_singleton] at hm
          omega
        · rw [if_neg hx] at hm; simp at hm
      · have := ih (k + 1) t hm; omega

theorem tagsOf_nodup (l : List ℕ) (i : ℕ) : ∀ k, (tagsOf l i k).Nodup := by
  induction l with
  | nil => intro k; simp [tagsOf]
  | cons x rest ih =>
      intro k
      rw [tagsOf]
      by_cases hx : x = i
      · rw [if_pos hx]
        refine List.nodup_cons.mpr ⟨fun hmem => ?_, ih (k + 1)⟩
        have := tagsOf_ge rest i (k + 1) k hmem
        omega
      · rw [if_neg hx]
        simpa using ih (k + 1)

theorem tileN_length (l : List ℕ) : ∀ n, (tileN n l).length = n * l.length := by
  intro n
  induction n with
  | zero => simp [tileN]
  | succ m ih => rw [tileN, List.length_append, ih]; ring

theorem tileN_count (l : List ℕ) (i : ℕ) :
    ∀ n, (tileN n l).count i = n * l.count i := by
  intro n
  induction n with
  | zero => simp [tileN]
  | succ m ih => rw [tileN, List.count_append, ih]; ring

theorem tileN_get? (l : List ℕ) :
    ∀ n t, t < n * l.length → (tileN n l).get? t = l.get? (t % l.length) := by
  intro n
  induction n with
  | zero => intro t ht; omega
  | succ m ih =>
      intro t ht
      rw [tileN]
      by_cases hlt : t < l.length
      · rw [List.get?_append hlt, Nat.mod_eq_of_lt hlt]
      · have hle := le_of_not_lt hlt
        have hmul : (m + 1) * l.length = m * l.length + l.length := by ring
        rw [List.get?_append_right hle, ih (t - l.length) (by omega)]
        congr 1
        rw [Nat.mod_eq_sub_mod hle]

theorem expandInsts_mem (n : ℕ) :
    ∀ (bl : List (Block × ℕ)) (i0 : ℕ) (p : Block × ℕ),
    p ∈ expandInsts bl n i0 → ∃ d c, p.2 = i0 + d ∧ bl.get? d = some (p.1, c) := by
  intro bl
  induction bl with
  | nil => intro i0 p hp; simp [expandInsts] at hp
  | cons bc rest ih =>
      intro i0 p hp
      obtain ⟨b, c⟩ := bc
      rw [expandInsts] at hp
      rcases List.mem_append.mp hp with hm | hm
      · obtain rfl := List.eq_of_mem_replicate hm
        exact ⟨0, c, by omega, rfl⟩
      · obtain ⟨d, c', hd, hget⟩ := ih (i0 + 1) p hm
        exact ⟨d + 1, c', by omega, by simpa using hget⟩

theorem expandInsts_indices_count (n : ℕ) :
    ∀ (bl : List (Block × ℕ)) (i0 d : ℕ),
    ((expandInsts bl n i0).map Prod.snd).count (i0 + d) =
      (match bl.get? d with
        | some bc => countPart bc.2 n
        | none => 0) := by
  intro bl
  induction bl with
  | nil => intro i0 d; simp [expandInsts]
  | cons bc rest ih =>
      intro i0 d
      obtain ⟨b, c⟩ := bc
      rw [expandInsts, List.map_append, List.count_append, List.map_replicate]
      cases d with
      | zero =>
          have h2 : ((expandInsts rest n (i0 + 1)).map Prod.snd).count (i0 + 0) = 0 := by
            rw [List.count_eq_zero]
            intro hmem
            obtain ⟨p, hp, hp2⟩ := List.mem_map.mp hmem
            obtain ⟨d', c', hd', -⟩ := expandInsts_mem n rest (i0 + 1) p hp
            omega
          rw [h2]
          simp [List.count_replicate]
      | succ d' =>
          have h1 : (List.replicate (countPart c n) i0).count (i0 + (d' + 1)) = 0 := by
            rw [List.count_eq_zero]
            intro hm
            have := List.eq_of_mem_replicate hm
            omega
          have heq : i0 + (d' + 1) = (i0 + 1) + d' := by omega
          rw [h1, heq, ih (i0 + 1) d']
          simp

theorem length_filter_not_mem :
    ∀ (l b : List ℕ), l.Nodup → b.Nodup → (∀ x ∈ b, x ∈ l) →
    (l.filter fun t => decide (t ∉ b)).length = l.length - b.length := by
  intro l
  induction l with
  | nil =>
      intro b _ _ hsub
      cases b with
      | nil => simp
      | cons x b' => exact absurd (hsub x (by simp)) (by simp)
  | cons a l' ih =>
      intro b hl hb hsub
      have ha : a ∉ l' := (List.nodup_cons.mp hl).1
      have hl' : l'.Nodup := (List.nodup_cons.mp hl).2
      by_cases hab : a ∈ b
      · have hfa : (decide (a ∉ b)) = false := by simp [hab]
        rw [List.filter_cons, hfa]
        simp only [Bool.false_eq_true, if_false]
        have hcong : l'.filter (fun t => decide (t ∉ b)) =
            l'.filter fun t => decide (t ∉ b.erase a) := by
          apply List.filter_congr
          intro x hx
          have hxa : x ≠ a := fun h => ha (h ▸ hx)
          simp only [decide_eq_decide]
          rw [List.mem_erase_of_ne hxa]
        have hsub' : ∀ x ∈ b.erase a, x ∈ l' := by
          intro x hx
          obtain ⟨hxa, hxb⟩ := (List.Nodup.mem_erase_iff hb).mp hx
          rcases List.mem_cons.mp (hsub x hxb) with h | h
          · exact absurd h hxa
          · exact h
        rw [hcong, ih (b.erase a) hl' (hb.erase a) hsub']
        rw [List.length_erase_of_mem hab]
        have hb1 : 1 ≤ b.length := by
          cases b with
          | nil => simp at hab
          | cons y b' => simp
        simp only [List.length_cons]
        omega
      · have hfa : (decide (a ∉ b)) = true := by simp [hab]
        rw [List.filter_cons, hfa]
        simp only [if_true]
        have hsub' : ∀ x ∈ b, x ∈ l' := by
          intro x hx
          rcases List.mem_cons.mp (hsub x hx) with h | h
          · exact absurd (h ▸ hx) hab
          · exact h
        have hblen' : b.length ≤ l'.length := by
          have h1 : List.Subperm b l' := hb.subperm (by intro x hx; exact hsub' x hx)
          exact h1.length_le
        simp only [List.length_cons]
        rw [ih b hl' hb hsub']
        omega

theorem placeAllGo_shape (cell : Mat3) (bl : List ((ℕ × ℕ) × ℚ))
    (rs : ℕ → ℕ → Vec3) (rotF : ℕ → ℕ → Vec3 → Vec3) (fuel : ℕ) :
    ∀ (insts : List (Block × ℕ)) (j : ℕ) (cand c : List Atom),
    placeAllGo cell bl rs rotF fuel insts j cand = some c →
    ∃ suf, c = cand ++ suf ∧
      (∀ a ∈ suf, j ≤ a.tag ∧ a.tag < j + insts.length) ∧
      ∀ d (hd : d < insts.length),
        (suf.filter fun a => a.tag == j + d).length =
          (insts.get ⟨d, hd⟩).1.atoms.length := by
  intro insts
  induction insts with
  | nil =>
      intro j cand c h
      obtain rfl : cand = c := by injection h
      exact ⟨[], by simp, by simp, fun d hd => by simp at hd⟩
  | cons bi rest ih =>
      intro j cand c h
      rw [placeAllGo] at h
      cases hp : placeOne cell bl cand bi.1 j (rs j) (rotF j) 0 fuel with
      | none => rw [hp] at h; exact absurd h (by simp)
      | some t =>
          rw [hp] at h
          obtain ⟨⟨k0, rfl⟩, -⟩ :=
            placeOne_some cell bl cand bi.1 j (rs j) (rotF j) 0 fuel t hp
          obtain ⟨suf, rfl, hbnd, hflt⟩ := ih (j + 1) _ c h
          refine ⟨mkTry cell bi.1 j (rs j k0) (rotF j k0) ++ suf,
            by rw [List.append_assoc], ?_, ?_⟩
          · intro a ha
            rcases List.mem_append.mp ha with hm | hm
            · have ht := mkTry_tags cell bi.1 j (rs j k0) (rotF j k0) a hm
              simp only [List.length_cons]
              omega
            · have := hbnd a hm
              simp only [List.length_cons] at this ⊢
              omega
          · intro d hd
            rw [List.filter_append, List.length_append]
            cases d with
            | zero =>
                have h1 : (mkTry cell bi.1 j (rs j k0) (rotF j k0)).filter
                    (fun a => a.tag == j + 0) =
                    mkTry cell bi.1 j (rs j k0) (rotF j k0) := by
                  rw [List.filter_eq_self]
                  intro a ha
                  have := mkTry_tags cell bi.1 j (rs j k0) (rotF j k0) a ha
                  simp [this]
                have h2 : (suf.filter fun a => a.tag == j + 0).length = 0 := by
                  rw [List.length_eq_zero, List.filter_eq_nil_iff]
                  intro a ha
                  have := (hbnd a ha).1
                  simp only [beq_iff_eq]
                  omega
                rw [h1, h2, mkTry_length]
                rfl
            | succ d' =>
                have h1 : ((mkTry cell bi.1 j (rs j k0)
                    (rotF j k0)).filter fun a => a.tag == j + (d' + 1)).length = 0 := by
                  rw [List.length_eq_zero, List.filter_eq_nil_iff]
                  intro a ha
                  have := mkTry_tags cell bi.1 j (rs j k0) (rotF j k0) a ha
                  simp only [beq_iff_eq]
                  omega
                have heq : j + (d' + 1) = (j + 1) + d' := by omega
                have h2 := hflt d' (by simpa using hd)
                rw [h1, heq, h2]
                simp [List.get_cons_succ]

theorem length_flatMap_eq_single {α : Type} :
    ∀ (n i0 : ℕ) (f : ℕ → List α) (K : ℕ),
    i0 < n → (f i0).length = K → (∀ i, i < n → i ≠ i0 → (f i).length = 0) →
    ((List.range n).flatMap f).length = K := by
  intro n
  induction n with
  | zero => intro i0 f K h; omega
  | succ m ih =>
      intro i0 f K hi0 hK hz
      rw [List.range_succ, List.flatMap_append, List.length_append]
      by_cases him : i0 = m
      · subst him
        have h1 : ((List.range i0).flatMap f).length = 0 := by
          rw [List.length_flatMap]
          apply List.sum_eq_zero
          intro x hx
          obtain ⟨i, hi, rfl⟩ := List.mem_map.mp hx
          have hilt := List.mem_range.mp hi
          simpa using hz i (by omega) (by omega)
        rw [h1]
        simpa using hK
      · have h2 : (List.flatMap [m] f).length = 0 := by
          simpa using hz m (by omega) (Ne.symm him)
        rw [h2, ih i0 f K (by omega) hK fun i hi hne => hz i (by omega) hne]
        omega

theorem sum_map_const_on (l : List ℕ) (f : ℕ → ℕ) (K : ℕ)
    (h : ∀ x ∈ l, f x = K) : (l.map f).sum = l.length * K := by
  induction l with
  | nil => simp
  | cons x rest ih =>
      rw [List.map_cons, List.sum_cons, h x (by simp),
        ih fun y hy => h y (by simp [hy]), List.length_cons]
      ring

theorem selectTag_candFullOf_length (cell : Mat3) (rep : ℕ × ℕ × ℕ) (N : ℕ)
    (cand : List Atom) (hN : ∀ a ∈ cand, a.tag < N) (t : ℕ)
    (ht : t < npartsOf rep * N) :
    (selectTag t (candFullOf cell rep N cand)).length =
      (selectTag (t % N) cand).length := by
  have hN0 : 0 < N := by
    rcases Nat.eq_zero_or_pos N with h0 | h0
    · subst h0; rw [Nat.mul_zero] at ht; omega
    · exact h0
  have hdm : t / N * N + t % N = t := by
    rw [mul_comm]
    exact Nat.div_add_mod t N
  have hdiv : t / N < npartsOf rep := by
    rw [Nat.div_lt_iff_lt_mul hN0]
    exact ht
  rw [selectTag, candFullOf, List.filter_flatMap]
  refine length_flatMap_eq_single _ _ _ _ hdiv ?_ ?_
  · rw [List.filter_map, List.length_map, selectTag]
    congr 1
    apply List.filter_congr
    intro a ha
    have hlt := hN a ha
    rw [Bool.eq_iff_iff]
    simp only [Function.comp_apply, beq_iff_eq]
    constructor
    · intro h
      have h2 := h.trans hdm.symm
      rw [Nat.add_comm (t / N * N) (t % N)] at h2
      exact Nat.add_right_cancel h2
    · intro h
      rw [h, Nat.add_comm]
      exact hdm
  · intro i hilt hine
    rw [List.filter_map, List.length_map, List.length_eq_zero,
      List.filter_eq_nil_iff]
    intro a ha
    have hlt := hN a ha
    simp only [Function.comp_apply, beq_iff_eq]
    intro heq
    apply hine
    rw [← heq, Nat.add_mul_div_right _ _ hN0, Nat.div_eq_of_lt hlt]
    omega

/-- Core of claims C1 and C10: in the replicated structure, a tag `t` kept
for block `i` selects a group of exactly the atom count of block `i`. -/
theorem selectTag_group_size (cell : Mat3) (bl : List ((ℕ × ℕ) × ℚ))
    (rs : ℕ → ℕ → Vec3) (rotF : ℕ → ℕ → Vec3 → Vec3) (fuel : ℕ)
    (blocks : List (Block × ℕ)) (rep : ℕ × ℕ × ℕ) (insts : List (Block × ℕ))
    (hperm : insts.Perm (expandInsts blocks (npartsOf rep) 0))
    (cand : List Atom)
    (hcand : placeAllGo cell bl rs rotF fuel insts 0 [] = some cand)
    (bad : ℕ → List ℕ) (i t : ℕ) (hi : i < blocks.length)
    (ht : t ∈ keptTagsFor (tileN (npartsOf rep) (insts.map Prod.snd)) bad i) :
    (selectTag t (candFullOf cell rep insts.length cand)).length =
      (blocks.get ⟨i, hi⟩).1.atoms.length := by
  have ht1 : t ∈ tagsOf (tileN (npartsOf rep) (insts.map Prod.snd)) i 0 :=
    (List.mem_filter.mp ht).1
  obtain ⟨d, htd, hget⟩ := (tagsOf_mem _ i 0 t).mp ht1
  obtain rfl : t = d := by omega
  have htlen := (List.get?_eq_some.mp hget).1
  rw [tileN_length, List.length_map] at htlen
  have hN0 : 0 < insts.length := by
    rcases Nat.eq_zero_or_pos insts.length with h0 | h0
    · rw [h0, Nat.mul_zero] at htlen; omega
    · exact h0
  have hmod : t % insts.length < insts.length := Nat.mod_lt _ hN0
  obtain ⟨suf, hsufeq, hbnd, hflt⟩ :=
    placeAllGo_shape cell bl rs rotF fuel insts 0 [] cand hcand
  rw [List.nil_append] at hsufeq
  subst hsufeq
  have htags : ∀ a ∈ cand, a.tag < insts.length := fun a ha => by
    have := (hbnd a ha).2; omega
  rw [selectTag_candFullOf_length cell rep insts.length cand htags t htlen]
  have hsel : (selectTag (t % insts.length) cand).length =
      (insts.get ⟨t % insts.length, hmod⟩).1.atoms.length := by
    have h1 := hflt (t % insts.length) hmod
    rw [selectTag]
    simpa using h1
  rw [hsel]
  have hmap : (insts.map Prod.snd).get? (t % insts.length) = some i := by
    rw [← hget, tileN_get? _ _ _ (by rw [List.length_map]; exact htlen)]
    rw [List.length_map]
  have hsnd : (insts.get ⟨t % insts.length, hmod⟩).2 = i := by
    rw [List.get?_map, List.get?_eq_get hmod] at hmap
    simpa using hmap
  have hmem : insts.get ⟨t % insts.length, hmod⟩ ∈ insts := List.get_mem _ _ _
  have hmemE := hperm.mem_iff.mp hmem
  obtain ⟨d', c', hd', hgetB⟩ :=
    expandInsts_mem (npartsOf rep) blocks 0 _ hmemE
  obtain rfl : d' = i := by omega
  rw [List.get?_eq_get hi] at hgetB
  injection hgetB with hbk
  rw [hbk]

theorem countPart_le_mul (c n : ℕ) (hn : 1 ≤ n) : c ≤ n * countPart c n := by
  have h1 := Nat.div_add_mod (c + n - 1) n
  have h2 : (c + n - 1) % n < n := Nat.mod_lt _ (by omega)
  rw [countPart]
  omega

/-- The number of tags kept for block `i` equals its configured count:
`nparts * ceil(c/nparts)` tag positions minus the `surplus` discarded. -/
theorem keptTagsFor_length_eq (blocks : List (Block × ℕ)) (rep : ℕ × ℕ × ℕ)
    (insts : List (Block × ℕ))
    (hperm : insts.Perm (expandInsts blocks (npartsOf rep) 0))
    (hn : 1 ≤ npartsOf rep) (bad : ℕ → List ℕ) (i : ℕ) (hi : i < blocks.length)
    (hsub : ∀ x ∈ bad i, x ∈ tagsOf (tileN (npartsOf rep) (insts.map Prod.snd)) i 0)
    (hnd : (bad i).Nodup)
    (hlen : (bad i).length = surplusOf (blocks.get ⟨i, hi⟩).2 (npartsOf rep)) :
    (keptTagsFor (tileN (npartsOf rep) (insts.map Prod.snd)) bad i).length =
      (blocks.get ⟨i, hi⟩).2 := by
  rw [keptTagsFor, length_filter_not_mem _ _ (tagsOf_nodup _ _ _) hnd hsub,
    tagsOf_length, tileN_count]
  have hc : (insts.map Prod.snd).count i =
      countPart (blocks.get ⟨i, hi⟩).2 (npartsOf rep) := by
    rw [(hperm.map Prod.snd).count_eq]
    have h1 := expandInsts_indices_count (npartsOf rep) blocks 0 i
    rw [Nat.zero_add] at h1
    rw [h1, List.get?_eq_get hi]
  rw [hc, hlen, surplusOf]
  have hle := countPart_le_mul (blocks.get ⟨i, hi⟩).2 (npartsOf rep) hn
  omega

theorem rebuildGo_length (cf : List Atom) :
    ∀ (kept : List ℕ) (g : ℕ),
    (rebuildGo cf kept g).length =
      (kept.map fun t => (selectTag t cf).length).sum := by
  intro kept
  induction kept with
  | nil => intro g; simp [rebuildGo]
  | cons t rest ih =>
      intro g
      rw [rebuildGo, List.length_append, List.length_map, List.map_cons,
        List.sum_cons, ih (g + 1)]

theorem keptTagsGo_sum (indF : List ℕ) (bad : ℕ → List ℕ) (G : ℕ → ℕ) :
    ∀ (blocks : List (Block × ℕ)) (i0 : ℕ),
    (∀ (d : ℕ) (hd : d < blocks.length),
      (∀ t ∈ keptTagsFor indF bad (i0 + d),
        G t = (blocks.get ⟨d, hd⟩).1.atoms.length) ∧
      (keptTagsFor indF bad (i0 + d)).length = (blocks.get ⟨d, hd⟩).2) →
    ((keptTagsGo indF bad blocks i0).map G).sum =
      (blocks.map fun bc => bc.2 * bc.1.atoms.length).sum := by
  intro blocks
  induction blocks with
  | nil => intro i0 h; simp [keptTagsGo]
  | cons bc rest ih =>
      intro i0 h
      rw [keptTagsGo, List.map_append, List.sum_append, List.map_cons,
        List.sum_cons]
      have h0 := h 0 (by simp)
      rw [Nat.add_zero] at h0
      have hhead : ((keptTagsFor indF bad i0).map G).sum =
          bc.2 * bc.1.atoms.length := by
        rw [sum_map_const_on _ G _ h0.1, h0.2]
        rfl
      have htail : ((keptTagsGo indF bad rest (i0 + 1)).map G).sum =
          (rest.map fun p => p.2 * p.1.atoms.length).sum := by
        apply ih (i0 + 1)
        intro d hd
        have hh := h (d + 1) (by simpa using Nat.succ_lt_succ hd)
        have heq : i0 + (d + 1) = (i0 + 1) + d := by omega
        rw [heq] at hh
        simpa [List.get_cons_succ] using hh
      rw [hhead, htail]

/-- C10.  For every kept tag `t` of block `i`, the group
`[a for a in cand_full if a.tag == tag]` has exactly the atom count of
block `i` (the assertion `len(atoms) == len(block)` at line 222 holds):
the per-image offsets `i * N_blocks` keep all instance tags distinct
across periodic images. -/
theorem C10_group_sizes (cell : Mat3) (bl : List ((ℕ × ℕ) × ℚ))
    (rs : ℕ → ℕ → Vec3) (rotF : ℕ → ℕ → Vec3 → Vec3) (fuel : ℕ)
    (blocks : List (Block × ℕ)) (rep : ℕ × ℕ × ℕ) (insts : List (Block × ℕ))
    (hperm : insts.Perm (expandInsts blocks (npartsOf rep) 0))
    (cand : List Atom)
    (hcand : placeAllGo cell bl rs rotF fuel insts 0 [] = some cand)
    (bad : ℕ → List ℕ) (i t : ℕ) (hi : i < blocks.length)
    (ht : t ∈ keptTagsFor (tileN (npartsOf rep) (insts.map Prod.snd)) bad i) :
    (selectTag t (candFullOf cell rep insts.length cand)).length =
      (blocks.get ⟨i, hi⟩).1.atoms.length :=
  selectTag_group_size cell bl rs rotF fuel blocks rep insts hperm cand hcand
    bad i t hi ht

/-- No discarded tags. -/
def badNone : ℕ → List ℕ := fun _ => []

theorem expandInsts_single :
    expandInsts [(blockA, 1)] (npartsOf (1, 1, 1)) 0 = [(blockA, 0)] := by
  rfl

/-- Witness for C10_group_sizes on a concrete one-block run. -/
theorem C10_group_sizes_witness :
    (([(blockA, 0)] : List (Block × ℕ)).Perm
      (expandInsts [(blockA, 1)] (npartsOf (1, 1, 1)) 0)) ∧
    (placeAllGo cellDiag2 blminX rsZero rotId 1 [(blockA, 0)] 0 [] =
      some [atomA]) ∧
    (0 ∈ keptTagsFor (tileN (npartsOf (1, 1, 1))
      (([(blockA, 0)] : List (Block × ℕ)).map Prod.snd)) badNone 0) ∧
    (selectTag 0 (candFullOf cellDiag2 (1, 1, 1)
        ([(blockA, 0)] : List (Block × ℕ)).length [atomA])).length =
      (([(blockA, 1)] : List (Block × ℕ)).get ⟨0, by simp⟩).1.atoms.length := by
  have hperm : ([(blockA, 0)] : List (Block × ℕ)).Perm
      (expandInsts [(blockA, 1)] (npartsOf (1, 1, 1)) 0) := by
    rw [expandInsts_single]
  have hmem : 0 ∈ keptTagsFor (tileN (npartsOf (1, 1, 1))
      (([(blockA, 0)] : List (Block × ℕ)).map Prod.snd)) badNone 0 := by
    simp [keptTagsFor, tileN, tagsOf, npartsOf, badNone]
  exact ⟨hperm, placeAllGo_single, hmem,
    C10_group_sizes cellDiag2 blminX rsZero rotId 1 [(blockA, 1)] (1, 1, 1)
      [(blockA, 0)] hperm [atomA] placeAllGo_single badNone 0 0 (by simp) hmem⟩

/-- C1.  For every candidate assembled by the reassembly phase, and for
every configured block `i` with count `c_i`: exactly `c_i` tag groups of
block `i` survive the discard (each of block `i`'s atom count, see
C10; here the total), the discard removes exactly
`nparts * ceil(c_i/nparts) - c_i` replicas, and the total atom count of
the returned structure is exactly the sum of `c_i * len(block_i)` —
independent of the chosen split factorization (`rep` and hence `nparts`
are universally quantified). -/
theorem C1_composition_counts (cell : Mat3) (bl : List ((ℕ × ℕ) × ℚ))
    (rs : ℕ → ℕ → Vec3) (rotF : ℕ → ℕ → Vec3 → Vec3) (fuel : ℕ)
    (blocks : List (Block × ℕ)) (rep : ℕ × ℕ × ℕ) (insts : List (Block × ℕ))
    (hperm : insts.Perm (expandInsts blocks (npartsOf rep) 0))
    (hn : 1 ≤ npartsOf rep) (cand : List Atom)
    (hcand : placeAllGo cell bl rs rotF fuel insts 0 [] = some cand)
    (bad : ℕ → List ℕ)
    (hsub : ∀ i, ∀ x ∈ bad i,
      x ∈ tagsOf (tileN (npartsOf rep) (insts.map Prod.snd)) i 0)
    (hnd : ∀ i, (bad i).Nodup)
    (hlen : ∀ (i : ℕ) (hi : i < blocks.length),
      (bad i).length = surplusOf (blocks.get ⟨i, hi⟩).2 (npartsOf rep)) :
    (∀ (i : ℕ) (hi : i < blocks.length),
      (keptTagsFor (tileN (npartsOf rep) (insts.map Prod.snd)) bad i).length =
        (blocks.get ⟨i, hi⟩).2 ∧
      (bad i).length =
        npartsOf rep * countPart (blocks.get ⟨i, hi⟩).2 (npartsOf rep) -
          (blocks.get ⟨i, hi⟩).2) ∧
    (rebuild (candFullOf cell rep insts.length cand)
        (keptTags blocks (tileN (npartsOf rep) (insts.map Prod.snd)) bad)).length =
      (blocks.map fun bc => bc.2 * bc.1.atoms.length).sum := by
  constructor
  · intro i hi
    exact ⟨keptTagsFor_length_eq blocks rep insts hperm hn bad i hi (hsub i)
        (hnd i) (hlen i hi), hlen i hi⟩
  · rw [rebuild, rebuildGo_length, keptTags]
    apply keptTagsGo_sum
    intro d hd
    rw [Nat.zero_add]
    exact ⟨fun t htt => selectTag_group_size cell bl rs rotF fuel blocks rep
        insts hperm cand hcand bad d t hd htt,
      keptTagsFor_length_eq blocks rep insts hperm hn bad d hd (hsub d)
        (hnd d) (hlen d hd)⟩

/-- Witness for C1_composition_counts on a concrete one-block run. -/
theorem C1_composition_counts_witness :
    ((([(blockA, 0)] : List (Block × ℕ)).Perm
        (expandInsts [(blockA, 1)] (npartsOf (1, 1, 1)) 0)) ∧
      1 ≤ npartsOf (1, 1, 1) ∧
      (placeAllGo cellDiag2 blminX rsZero rotId 1 [(blockA, 0)] 0 [] =
        some [atomA]) ∧
      (∀ i, ∀ x ∈ badNone i,
        x ∈ tagsOf (tileN (npartsOf (1, 1, 1))
          (([(blockA, 0)] : List (Block × ℕ)).map Prod.snd)) i 0) ∧
      (∀ i, (badNone i).Nodup) ∧
      (∀ (i : ℕ) (hi : i < ([(blockA, 1)] : List (Block × ℕ)).length),
        (badNone i).length =
          surplusOf ((([(blockA, 1)] : List (Block × ℕ)).get ⟨i, hi⟩).2)
            (npartsOf (1, 1, 1)))) ∧
    ((∀ (i : ℕ) (hi : i < ([(blockA, 1)] : List (Block × ℕ)).length),
      (keptTagsFor (tileN (npartsOf (1, 1, 1))
          (([(blockA, 0)] : List (Block × ℕ)).map Prod.snd)) badNone i).length =
        (([(blockA, 1)] : List (Block × ℕ)).get ⟨i, hi⟩).2 ∧
      (badNone i).length =
        npartsOf (1, 1, 1) *
          countPart ((([(blockA, 1)] : List (Block × ℕ)).get ⟨i, hi⟩).2)
            (npartsOf (1, 1, 1)) -
          (([(blockA, 1)] : List (Block × ℕ)).get ⟨i, hi⟩).2) ∧
    (rebuild (candFullOf cellDiag2 (1, 1, 1)
        ([(blockA, 0)] : List (Block × ℕ)).length [atomA])
        (keptTags [(blockA, 1)] (tileN (npartsOf (1, 1, 1))
          (([(blockA, 0)] : List (Block × ℕ)).map Prod.snd)) badNone)).length =
      (([(blockA, 1)] : List (Block × ℕ)).map
        fun bc => bc.2 * bc.1.atoms.length).sum) := by
  have hperm : ([(blockA, 0)] : List (Block × ℕ)).Perm
      (expandInsts [(blockA, 1)] (npartsOf (1, 1, 1)) 0) := by
    rw [expandInsts_single]
  have hsub : ∀ i, ∀ x ∈ badNone i,
      x ∈ tagsOf (tileN (npartsOf (1, 1, 1))
        (([(blockA, 0)] : List (Block × ℕ)).map Prod.snd)) i 0 := by
    intro i x hx
    simp [badNone] at hx
  have hnd : ∀ i, (badNone i).Nodup := fun i => List.nodup_nil
  have hlen : ∀ (i : ℕ) (hi : i < ([(blockA, 1)] : List (Block × ℕ)).length),
      (badNone i).length =
        surplusOf ((([(blockA, 1)] : List (Block × ℕ)).get ⟨i, hi⟩).2)
          (npartsOf (1, 1, 1)) := by
    intro i hi
    simp only [List.length_singleton] at hi
    have h0 : i = 0 := by omega
    subst h0
    simp [badNone, surplusOf, countPart, npartsOf]
  exact ⟨⟨hperm, by simp [npartsOf], placeAllGo_single, hsub, hnd, hlen⟩,
    C1_composition_counts cellDiag2 blminX rsZero rotId 1 [(blockA, 1)]
      (1, 1, 1) [(blockA, 0)] hperm (by simp [npartsOf]) [atomA]
      placeAllGo_single badNone hsub hnd hlen⟩

theorem foldl_min_le (l : List ℚ) : ∀ a : ℚ, l.foldl min a ≤ a := by
  induction l with
  | nil => intro a; simp
  | cons x xs ih =>
      intro a
      rw [List.foldl_cons]
      exact le_trans (ih (min a x)) (min_le_left a x)

theorem distSqMIC_le_normSq (cell : Mat3) (p q : Vec3) :
    distSqMIC cell p q ≤ normSq (vsub p q) :=
  foldl_min_le _ _

/-! ### C2, counterexample: a sampled skewed subcell whose replication
violates the minimum distance.

The subcell `cellSkew` below is an actual output of the sampler of lines
129-139 at target subcell volume 2 (volume 8, split (2,2), nparts 4),
proved in `cellSkew_reachable` below: a final cell `C` of determinant
`D > 0` is produced exactly by the draws whose raw cell is `C / s`, and
the rescale self-consistency `s = (t / det(C/s)) ** 0.33` forces
`s = (t / D) ^ 33`.  Here `D = 13/50` and `t = 2`, so
`s = (100/13) ^ 33`, which shrinks the raw diagonals far below the cap
`random() * t ** 0.33` (the raw cell is tiny, the rescale blows it back
up); the tilt ratios `cell[i,j]/cell[j,j]` are scale-invariant and lie
in the sampled range (-0.5, 0.5).  `cellSkew` has all three rows of
length at least `blminmax = blmin[(1,1)] = 1` (squared norms 4, 233/100,
101/100), so the validity loop accepts it.  A single atom of element 1
is placed (count 4, one instance per subcell); the too-close test is
vacuous for one atom.  Replication along directions 2 and 3 produces
four differently tagged copies whose difference vector
`a2 - a3 = (0, 7/10, -1/10)` has squared length 1/2 < 1: the returned
structure contains a pair of distinct-tag atoms closer than the
configured minimum. -/

def cellSkew : Mat3 :=
  (((2 : ℚ), (0 : ℚ), (0 : ℚ)), ((4/5 : ℚ), (13/10 : ℚ), (0 : ℚ)),
    ((4/5 : ℚ), (3/5 : ℚ), (1/10 : ℚ)))

def fullSkew : Mat3 :=
  (((2 : ℚ), (0 : ℚ), (0 : ℚ)), ((8/5 : ℚ), (13/5 : ℚ), (0 : ℚ)),
    ((8/5 : ℚ), (6/5 : ℚ), (1/5 : ℚ)))

def cfgSkew : Config :=
  ⟨8, none, none, [([2, 2], 1)], [(blockA, 4)], blminX⟩

/-- One attempt of the cell sampler (lines 129-139), as a relation over
ℝ: six uniform draws in [0,1) build the lower-triangular raw cell with
diagonal entries `r * l` for `l = target_volume ** 0.33` (characterized
exactly by `0 ≤ l` and `l ^ 100 = t ^ 33`, as in C5) and tilt entries
`(r - 0.5) * diagonal`; `volume = abs(np.linalg.det(cell))` of the raw
lower-triangular cell is the product of its diagonal entries
(nonnegative here since the diagonal draws are); the whole cell is then
rescaled by `s = (target_volume / volume) ** 0.33` (`0 ≤ s`,
`s ^ 100 = (t / v) ^ 33`).  `Reachable033 t cell` states that the
rational cell `cell` is an output of this attempt. -/
def Reachable033 (t : ℚ) (cell : Mat3) : Prop :=
  ∃ l s r1 r2 r3 r4 r5 r6 : ℝ,
    (0 ≤ r1 ∧ r1 < 1) ∧ (0 ≤ r2 ∧ r2 < 1) ∧ (0 ≤ r3 ∧ r3 < 1) ∧
    (0 ≤ r4 ∧ r4 < 1) ∧ (0 ≤ r5 ∧ r5 < 1) ∧ (0 ≤ r6 ∧ r6 < 1) ∧
    0 ≤ l ∧ l ^ 100 = (t : ℝ) ^ 33 ∧
    0 < (r1 * l) * ((r3 * l) * (r6 * l)) ∧
    0 ≤ s ∧
    s ^ 100 = ((t : ℝ) / ((r1 * l) * ((r3 * l) * (r6 * l)))) ^ 33 ∧
    ((cell.1.1 : ℝ) = s * (r1 * l) ∧ (cell.1.2.1 : ℝ) = 0 ∧
      (cell.1.2.2 : ℝ) = 0) ∧
    ((cell.2.1.1 : ℝ) = s * ((r2 - 1/2) * (r1 * l)) ∧
      (cell.2.1.2.1 : ℝ) = s * (r3 * l) ∧ (cell.2.1.2.2 : ℝ) = 0) ∧
    ((cell.2.2.1 : ℝ) = s * ((r4 - 1/2) * (r1 * l)) ∧
      (cell.2.2.2.1 : ℝ) = s * ((r5 - 1/2) * (r3 * l)) ∧
      (cell.2.2.2.2 : ℝ) = s * (r6 * l))

/-- `cellSkew` is an actual sampler output at target subcell volume 2:
the rescale factor is `(100/13) ^ 33`, the tilt draws are 9/10, 9/10 and
25/26, and the diagonal draws are the (tiny, in-range) quotients of the
final diagonals by `s * l`. -/
theorem cellSkew_reachable : Reachable033 2 cellSkew := by
  have h2 : (0 : ℝ) < 2 := two_pos
  obtain ⟨l, hl⟩ : ∃ x : ℝ, x = (2 : ℝ) ^ ((33 : ℝ) / 100) := ⟨_, rfl⟩
  have hlpos : 0 < l := by rw [hl]; positivity
  have hl1 : (1 : ℝ) ≤ l := by
    rw [hl]
    calc (1 : ℝ) = (2 : ℝ) ^ (0 : ℝ) := (Real.rpow_zero 2).symm
      _ ≤ (2 : ℝ) ^ ((33 : ℝ) / 100) :=
        Real.rpow_le_rpow_of_exponent_le (by norm_num) (by norm_num)
  have hl100 : l ^ (100 : ℕ) = (2 : ℝ) ^ (33 : ℕ) := by
    rw [hl, ← Real.rpow_natCast ((2 : ℝ) ^ ((33 : ℝ) / 100)) 100,
      ← Real.rpow_mul (le_of_lt h2),
      show ((33 : ℝ) / 100 * (100 : ℕ) : ℝ) = ((33 : ℕ) : ℝ) by push_cast; ring]
    exact Real.rpow_natCast 2 33
  obtain ⟨σ, hσ⟩ : ∃ x : ℝ, x = ((100 : ℝ) / 13) ^ (33 : ℕ) := ⟨_, rfl⟩
  have hσpos : 0 < σ := by rw [hσ]; positivity
  have hσ2 : (2 : ℝ) < σ := by
    have h1 : ((100 : ℝ) / 13) ≤ σ := by
      rw [hσ]
      exact le_self_pow (by norm_num) (by norm_num)
    have h2' : (2 : ℝ) < 100 / 13 := by norm_num
    linarith
  have hσl : (2 : ℝ) < σ * l := by
    calc (2 : ℝ) < σ := hσ2
      _ = σ * 1 := (mul_one σ).symm
      _ ≤ σ * l := by
        apply mul_le_mul_of_nonneg_left hl1 (le_of_lt hσpos)
  have hσlpos : (0 : ℝ) < σ * l := lt_trans two_pos hσl
  have hσlne : σ * l ≠ 0 := ne_of_gt hσlpos
  have hlne : l ≠ 0 := ne_of_gt hlpos
  have hσne : σ ≠ 0 := ne_of_gt hσpos
  refine ⟨l, σ, 2 / (σ * l), 9/10, 13 / (10 * (σ * l)), 9/10, 25/26,
    1 / (10 * (σ * l)), ?_, ?_, ?_, ?_, ?_, ?_, ?_, ?_, ?_, ?_, ?_, ?_, ?_, ?_⟩
  · exact ⟨by positivity, by rw [div_lt_one hσlpos]; exact hσl⟩
  · norm_num
  · refine ⟨by positivity, ?_⟩
    rw [div_lt_one (by positivity)]
    linarith
  · norm_num
  · norm_num
  · refine ⟨by positivity, ?_⟩
    rw [div_lt_one (by positivity)]
    linarith
  · exact le_of_lt hlpos
  · exact hl100
  · have hr1 : 2 / (σ * l) * l = 2 / σ := by field_simp; ring
    have hr3 : 13 / (10 * (σ * l)) * l = 13 / (10 * σ) := by field_simp; ring
    have hr6 : 1 / (10 * (σ * l)) * l = 1 / (10 * σ) := by field_simp; ring
    rw [hr1, hr3, hr6]
    positivity
  · exact le_of_lt hσpos
  · have hprod : (2 / (σ * l) * l) * ((13 / (10 * (σ * l)) * l) *
        (1 / (10 * (σ * l)) * l)) = 13 / (50 * σ ^ 3) := by
      field_simp
      ring
    rw [hprod]
    rw [show ((2 : ℚ) : ℝ) = 2 by norm_num]
    rw [div_div_eq_mul_div, show (2 : ℝ) * (50 * σ ^ 3) / 13 =
      (100 / 13) * σ ^ 3 by ring]
    rw [hσ, ← pow_mul, ← pow_mul]
    rw [show ((33 : ℕ) * 3 : ℕ) = 99 from rfl, ← pow_succ']
    rw [← pow_mul]
  · refine ⟨?_, by norm_num [cellSkew], by norm_num [cellSkew]⟩
    rw [show (cellSkew.1.1 : ℝ) = 2 by norm_num [cellSkew]]
    field_simp
    ring
  · refine ⟨?_, ?_, by norm_num [cellSkew]⟩
    · rw [show (cellSkew.2.1.1 : ℝ) = 4/5 by norm_num [cellSkew]]
      field_simp
      ring
    · rw [show (cellSkew.2.1.2.1 : ℝ) = 13/10 by norm_num [cellSkew]]
      field_simp
      ring
  · refine ⟨?_, ?_, ?_⟩
    · rw [show (cellSkew.2.2.1 : ℝ) = 4/5 by norm_num [cellSkew]]
      field_simp
      ring
    · rw [show (cellSkew.2.2.2.1 : ℝ) = 3/5 by norm_num [cellSkew]]
      field_simp
      ring
    · rw [show (cellSkew.2.2.2.2 : ℝ) = 1/10 by norm_num [cellSkew]]
      field_simp

def atomsX : List Atom :=
  [⟨1, ((0 : ℚ), (0 : ℚ), (0 : ℚ)), 0⟩,
    ⟨1, ((4/5 : ℚ), (3/5 : ℚ), (1/10 : ℚ)), 1⟩,
    ⟨1, ((4/5 : ℚ), (13/10 : ℚ), (0 : ℚ)), 2⟩,
    ⟨1, ((8/5 : ℚ), (19/10 : ℚ), (1/10 : ℚ)), 3⟩]

def candX : Candidate := ⟨fullSkew, atomsX⟩

theorem cellPhase_skew :
    cellPhase cfgSkew (1, 2, 2) (fun _ => cellSkew) 1 =
      some (cellSkew, fullSkew) := by
  norm_num [cellPhase, cfgSkew, cellLoop, cellValidB, rowLongB, blminmaxOf,
    blminX, normSq, fullOf, vsmul, cellSkew, fullSkew]

theorem shuffledInsts_skew :
    shuffledInsts cfgSkew.blocks (npartsOf (1, 2, 2)) [0] = [(blockA, 0)] := by
  norm_num [shuffledInsts, cfgSkew, expandInsts, countPart, npartsOf,
    List.filterMap_cons, List.getElem?_cons_zero]

theorem placeAllGo_skew :
    placeAllGo cellSkew cfgSkew.blmin rsZero rotId 1 [(blockA, 0)] 0 [] =
      some [⟨1, ((0 : ℚ), (0 : ℚ), (0 : ℚ)), 0⟩] := by
  norm_num [placeAllGo, placeOne, mkTry, copOf, blockA, lincomb, vadd, vsub,
    vsmul, rsZero, rotId, wrapAll, wrapPos, solve3, det3, fracQ, cellSkew,
    tooCloseB, cfgSkew, blminX]

theorem rebuild_skew :
    rebuild (candFullOf cellSkew (1, 2, 2) 1
        [⟨1, ((0 : ℚ), (0 : ℚ), (0 : ℚ)), 0⟩])
      (keptTags cfgSkew.blocks
        (tileN (npartsOf (1, 2, 2)) ([((blockA : Block), (0 : ℕ))].map Prod.snd))
        badNone) = atomsX := by
  norm_num [rebuild, rebuildGo, selectTag, candFullOf, npartsOf, imageOf,
    shiftOf, lincomb, vadd, vsmul, tileN, keptTags, keptTagsGo, keptTagsFor,
    tagsOf, badNone, cfgSkew, blockA, atomsX, cellSkew, List.range_succ,
    List.range_zero, List.flatMap_cons, List.flatMap_nil, List.flatMap_append]

theorem getNewCandidate_skew :
    getNewCandidate cfgSkew (1, 2, 2) [0] (fun _ => cellSkew) 1 rsZero rotId 1
      badNone = some candX := by
  rw [getNewCandidate, cellPhase_skew]
  simp only [shuffledInsts_skew, placeAllGo_skew]
  rw [show ([((blockA : Block), (0 : ℕ))] : List (Block × ℕ)).length = 1 from rfl,
    rebuild_skew]
  rfl

/-- C2, counterexample.  A structure returned by `get_new_candidate`
contains two atoms with distinct tags at squared minimum-image distance
at most 1/2, below the squared configured minimum 1 for their element
pair: the claimed distance property fails on the replicated structure.
The run is an actual program behavior: the subcell it accepts is an
output of the sampler of lines 129-139 at this configuration's target
subcell volume `volume / nparts = 8 / 4` (first conjunct), it passes the
validity test, and the remaining draws (shuffle, placement, discard) are
spelled out. -/
theorem C2_counterexample :
    Reachable033 (cfgSkew.volume / ((npartsOf (1, 2, 2) : ℕ) : ℚ)) cellSkew ∧
    (getNewCandidate cfgSkew (1, 2, 2) [0] (fun _ => cellSkew) 1 rsZero rotId 1
      badNone = some candX) ∧
    ¬ pairwiseOK candX.cell cfgSkew.blmin candX.atoms := by
  refine ⟨?_, getNewCandidate_skew, ?_⟩
  · rw [show cfgSkew.volume / ((npartsOf (1, 2, 2) : ℕ) : ℚ) = 2 by
      norm_num [cfgSkew, npartsOf]]
    exact cellSkew_reachable
  intro h
  rw [pairwiseOK] at h
  simp only [candX, atomsX, List.pairwise_cons] at h
  have hR := h.2.1 ⟨1, ((4/5 : ℚ), (13/10 : ℚ), (0 : ℚ)), 2⟩ (by simp)
  have htag : (1 : ℕ) ≠ 2 := by omega
  have hge := hR htag
  have hle := distSqMIC_le_normSq fullSkew
    ((4/5 : ℚ), (3/5 : ℚ), (1/10 : ℚ)) ((4/5 : ℚ), (13/10 : ℚ), (0 : ℚ))
  rw [show normSq (vsub ((4/5 : ℚ), (3/5 : ℚ), (1/10 : ℚ))
      ((4/5 : ℚ), (13/10 : ℚ), (0 : ℚ))) = 1/2 by norm_num [normSq, vsub]] at hle
  rw [show lookupBL cfgSkew.blmin 1 1 = 1 by norm_num [lookupBL, cfgSkew,
    blminX, List.lookup]] at hge
  norm_num at hge
  linarith

theorem vsmul_nat_inv_cancel (n : ℕ) (hn : 1 ≤ n) (v : Vec3) :
    vsmul (n : ℚ) (vsmul (1 / (n : ℚ)) v) = v := by
  have hne : (n : ℚ) ≠ 0 := by
    simp only [ne_eq, Nat.cast_eq_zero]
    omega
  obtain ⟨v1, v2, v3⟩ := v
  simp only [vsmul, Prod.mk.injEq]
  refine ⟨?_, ?_, ?_⟩ <;> field_simp

/-- C6.  With a fixed cell configured: the cell phase returns the fixed
cell as the full cell and its per-row quotient by the repeat factors as
the subcell, for every stream of sampled cells and every fuel — even fuel
0, so the sampling loop is skipped entirely; re-scaling the subcell by
the repeat factors recovers the configured cell exactly; and every
candidate the generator returns carries the configured cell. -/
theorem C6_fixed_cell (cfg : Config) (C : Mat3) (rep : ℕ × ℕ × ℕ)
    (hfix : cfg.cell = some C) (h1 : 1 ≤ rep.1) (h2 : 1 ≤ rep.2.1)
    (h3 : 1 ≤ rep.2.2) :
    (∀ (cells : ℕ → Mat3) (fuel : ℕ),
      cellPhase cfg rep cells fuel = some (subcellOfFixed C rep, C)) ∧
    fullOf rep (subcellOfFixed C rep) = C ∧
    (∀ (order : List ℕ) (cells : ℕ → Mat3) (cellFuel : ℕ) (rs : ℕ → ℕ → Vec3)
      (rotF : ℕ → ℕ → Vec3 → Vec3) (placeFuel : ℕ) (bad : ℕ → List ℕ)
      (cand : Candidate),
      getNewCandidate cfg rep order cells cellFuel rs rotF placeFuel bad =
        some cand → cand.cell = C) := by
  refine ⟨fun cells fuel => by rw [cellPhase, hfix], ?_, ?_⟩
  · rw [fullOf, subcellOfFixed]
    show (vsmul (rep.1 : ℚ) (vsmul (1 / (rep.1 : ℚ)) C.1),
      vsmul (rep.2.1 : ℚ) (vsmul (1 / (rep.2.1 : ℚ)) C.2.1),
      vsmul (rep.2.2 : ℚ) (vsmul (1 / (rep.2.2 : ℚ)) C.2.2)) = C
    rw [vsmul_nat_inv_cancel rep.1 h1 C.1,
      vsmul_nat_inv_cancel rep.2.1 h2 C.2.1,
      vsmul_nat_inv_cancel rep.2.2 h3 C.2.2]
  · intro order cells cellFuel rs rotF placeFuel bad cand hc
    rw [getNewCandidate] at hc
    simp only [cellPhase, hfix] at hc
    cases hp : placeAllGo (subcellOfFixed C rep) cfg.blmin rs rotF placeFuel
        (shuffledInsts cfg.blocks (npartsOf rep) order) 0 [] with
    | none => rw [hp] at hc; exact absurd hc (by simp)
    | some cand0 =>
        rw [hp] at hc
        injection hc with h
        rw [← h]

def cfgFix : Config :=
  ⟨26/25, none, some cellDiag2, [([1], 1)], [(blockA, 1)], blminX⟩

/-- Witness for C6_fixed_cell on a concrete fixed-cell configuration. -/
theorem C6_fixed_cell_witness :
    (cfgFix.cell = some cellDiag2 ∧ 1 ≤ (1 : ℕ)) ∧
    ((∀ (cells : ℕ → Mat3) (fuel : ℕ),
      cellPhase cfgFix (1, 1, 1) cells fuel =
        some (subcellOfFixed cellDiag2 (1, 1, 1), cellDiag2)) ∧
    fullOf (1, 1, 1) (subcellOfFixed cellDiag2 (1, 1, 1)) = cellDiag2 ∧
    (∀ (order : List ℕ) (cells : ℕ → Mat3) (cellFuel : ℕ) (rs : ℕ → ℕ → Vec3)
      (rotF : ℕ → ℕ → Vec3 → Vec3) (placeFuel : ℕ) (bad : ℕ → List ℕ)
      (cand : Candidate),
      getNewCandidate cfgFix (1, 1, 1) order cells cellFuel rs rotF placeFuel
        bad = some cand → cand.cell = cellDiag2)) :=
  ⟨⟨rfl, le_refl 1⟩,
    C6_fixed_cell cfgFix cellDiag2 (1, 1, 1) rfl (le_refl 1) (le_refl 1)
      (le_refl 1)⟩

/-- A configuration with BOTH a fixed cell and bounds that reject every
cell: the bounds are never consulted. -/
def cfgBadB : Config :=
  ⟨26/25, some rejectAll, some cellDiag2, [([1], 1)], [(blockA, 1)], blminX⟩

def candFix : Candidate := ⟨cellDiag2, [atomA]⟩

theorem getNewCandidate_cfgBadB :
    getNewCandidate cfgBadB (1, 1, 1) [0] (fun _ => cellDiag2) 0 rsZero rotId 1
      badNone = some candFix := by
  norm_num [getNewCandidate, cellPhase, cfgBadB, subcellOfFixed, shuffledInsts,
    expandInsts, countPart, npartsOf, List.filterMap_cons,
    List.getElem?_cons_zero, placeAllGo, placeOne, mkTry, copOf, blockA,
    lincomb, vadd, vsub, vsmul, rsZero, rotId, wrapAll, wrapPos, solve3, det3,
    fracQ, tooCloseB, blminX, candFullOf, imageOf, shiftOf, tileN, keptTags,
    keptTagsGo, keptTagsFor, tagsOf, badNone, rebuild, rebuildGo, selectTag,
    cellDiag2, candFix, atomA, List.range_succ, List.range_zero,
    List.flatMap_cons, List.flatMap_nil, List.flatMap_append]

/-- C7, counterexample.  With a fixed cell configured, the validity loop
is skipped (`valid = True`, line 123) and `cellbounds` is never consulted:
a generator constructed with bounds that reject every cell and a fixed
cell still returns a candidate, whose cell violates the configured
bounds.  The claim's "including the case where a fixed cell was supplied"
is false. -/
theorem C7_counterexample :
    (cfgBadB.cellbounds = some rejectAll) ∧
    (getNewCandidate cfgBadB (1, 1, 1) [0] (fun _ => cellDiag2) 0 rsZero rotId
      1 badNone = some candFix) ∧
    rejectAll candFix.cell = false :=
  ⟨rfl, getNewCandidate_cfgBadB, rfl⟩

/-- A bounds predicate accepting every cell. -/
def acceptAll : Mat3 → Bool := fun _ => true

def cfgOpen : Config :=
  ⟨26/25, some acceptAll, none, [([1], 1)], [(blockA, 1)], blminX⟩

theorem cellPhase_cfgOpen :
    cellPhase cfgOpen (1, 1, 1) (fun _ => cellDiag2) 1 =
      some (cellDiag2, cellDiag2) := by
  norm_num [cellPhase, cfgOpen, cellLoop, cellValidB, rowLongB, blminmaxOf,
    blminX, normSq, fullOf, vsmul, cellDiag2, acceptAll]

/-- Witness for C7_sampled_cell_within_bounds on a concrete sampled run. -/
theorem C7_sampled_cell_within_bounds_witness :
    (cfgOpen.cell = none ∧ cfgOpen.cellbounds = some acceptAll ∧
      cellPhase cfgOpen (1, 1, 1) (fun _ => cellDiag2) 1 =
        some (cellDiag2, cellDiag2)) ∧
    acceptAll cellDiag2 = true :=
  ⟨⟨rfl, rfl, cellPhase_cfgOpen⟩,
    C7_sampled_cell_within_bounds cfgOpen acceptAll (1, 1, 1)
      (fun _ => cellDiag2) 1 cellDiag2 cellDiag2 rfl rfl cellPhase_cfgOpen⟩

/-- `get_new_candidate` with the generator object's state threaded through
explicitly: the method reads `self.blmin`, `self.splits` (already sampled
into `rep`), `self.cell`, `self.cellbounds`, `self.volume` and
`self.blocks` and contains no assignment to any `self` attribute; the one
mutation hazard — `set_tags`/`translate`/`euler_rotate` are mutating calls
— acts on `blocks[i].copy()` (line 177), embedded as the pure function
`mkTry` of the block value.  The returned pair is (result, the object
state after the call). -/
def getNewCandidateS (cfg : Config) (rep : ℕ × ℕ × ℕ) (order : List ℕ)
    (cells : ℕ → Mat3) (cellFuel : ℕ) (rs : ℕ → ℕ → Vec3)
    (rotF : ℕ → ℕ → Vec3 → Vec3) (placeFuel : ℕ) (bad : ℕ → List ℕ) :
    Option Candidate × Config :=
  (getNewCandidate cfg rep order cells cellFuel rs rotF placeFuel bad, cfg)

/-- C9.  A call to `get_new_candidate` leaves the generator's
configuration untouched: the state after the call is the state before it,
in particular the blocks list, the distance table, the splits, the
volume, the cell bounds and the fixed cell are identical; any number of
calls therefore shares only this read-only configuration. -/
theorem C9_config_unchanged (cfg : Config) (rep : ℕ × ℕ × ℕ) (order : List ℕ)
    (cells : ℕ → Mat3) (cellFuel : ℕ) (rs : ℕ → ℕ → Vec3)
    (rotF : ℕ → ℕ → Vec3 → Vec3) (placeFuel : ℕ) (bad : ℕ → List ℕ) :
    (getNewCandidateS cfg rep order cells cellFuel rs rotF placeFuel bad).2 =
      cfg ∧
    (getNewCandidateS cfg rep order cells cellFuel rs rotF placeFuel
      bad).2.blocks = cfg.blocks ∧
    (getNewCandidateS cfg rep order cells cellFuel rs rotF placeFuel
      bad).2.blmin = cfg.blmin ∧
    (getNewCandidateS cfg rep order cells cellFuel rs rotF placeFuel
      bad).2.splits = cfg.splits ∧
    (getNewCandidateS cfg rep order cells cellFuel rs rotF placeFuel
      bad).2.volume = cfg.volume ∧
    (getNewCandidateS cfg rep order cells cellFuel rs rotF placeFuel
      bad).2.cellbounds = cfg.cellbounds ∧
    (getNewCandidateS cfg rep order cells cellFuel rs rotF placeFuel
      bad).2.cell = cfg.cell :=
  ⟨rfl, rfl, rfl, rfl, rfl, rfl, rfl⟩

end BulkSG
